import Mathlib

/-!
Verification of the lingo.dev Deno SDK (`src/mod.ts`) against its
natural-language specification.

The development shallowly embeds the data model and the pure data-flow of
`mod.ts` into Lean:

* JavaScript runtime values that may appear in a payload are modelled by the
  inductive type `JVal` (strings, numbers, booleans, null, arrays, objects).
  JavaScript records (`Record<string, T>`) are modelled as insertion-ordered
  association lists `List (String × T)`; `Object.entries`, `Object.values`
  and `Object.assign` are modelled on that representation.
* JavaScript string primitives used by the source (`String.prototype.split`,
  `trim`, `parseInt`, template-literal rendering of numbers) are modelled by
  executable functions on `String` (working on the underlying `List Char`).
* The remote HTTP service is an external collaborator: network responses are
  passed in as explicit arguments (a response record for a single request, or
  a per-chunk response function for the chunked pipeline).

All definitions are executable, so every concrete claim can be settled by
`decide`/`rfl`.
-/

namespace SdkDeno

/-! ### JavaScript string primitives -/

/-- Whitespace test used to model the JavaScript `\s` character class and
`String.prototype.trim`. -/
def isWs (c : Char) : Bool := c.isWhitespace

/-- Characters of a string with leading and trailing whitespace removed;
models `String.prototype.trim`. -/
def jsTrimList (cs : List Char) : List Char :=
  ((cs.dropWhile isWs).reverse.dropWhile isWs).reverse

/-- Models `s.trim()`. -/
def jsTrim (s : String) : String := ⟨jsTrimList s.data⟩

/-- Split a character list at every character satisfying `p`, keeping empty
pieces (as JavaScript `split` does for adjacent separators). -/
def splitListOnP (p : Char → Bool) : List Char → List (List Char)
  | [] => [[]]
  | c :: rest =>
    if p c then [] :: splitListOnP p rest
    else
      match splitListOnP p rest with
      | [] => [[c]]
      | t :: ts => (c :: t) :: ts

/-- Models the JavaScript `s.split(sep)` for a single-character separator
`sep`: pieces between occurrences of `sep`, empty pieces kept. -/
def jsSplit (sep : Char) (s : String) : List String :=
  (splitListOnP (fun c => c = sep) s.data).map (fun cs => ⟨cs⟩)

/-- Models `payload.trim().split(/\s+/).filter(Boolean).length` from
`countWordsInRecord`: the number of maximal whitespace-delimited non-empty
tokens of `s`.  Splitting the trimmed string at every whitespace character
and dropping empty pieces yields exactly the tokens that the regex split
`/\s+/` followed by `filter(Boolean)` produces. -/
def wordCount (s : String) : Nat :=
  ((splitListOnP isWs (jsTrimList s.data)).filter (fun t => t ≠ [])).length

/-- Decimal digit character (`0` ↦ `'0'`, …, `9` ↦ `'9'`). -/
def digitChar (d : Nat) : Char := Char.ofNat (48 + d)

/-- Fuel-driven digit expansion; with fuel above `n` this computes the
decimal digits of `n`, most significant first.  The explicit fuel keeps the
definition structurally recursive (kernel-reducible). -/
def natDigitsAux : Nat → Nat → List Char
  | 0, _ => []
  | fuel + 1, n =>
    if n < 10 then [digitChar n]
    else natDigitsAux fuel (n / 10) ++ [digitChar (n % 10)]

/-- Decimal digit characters of `n`, most significant first; models how a
JavaScript template literal renders a non-negative integer. -/
def natDigits (n : Nat) : List Char := natDigitsAux (n + 1) n

/-- Models the JavaScript rendering `` `${n}` `` of a non-negative integer. -/
def natToStr (n : Nat) : String := ⟨natDigits n⟩

/-- Numeric value of a decimal digit character. -/
def digitVal (c : Char) : Nat := c.toNat - 48

/-- Numeric value of a hexadecimal digit character. -/
def hexVal (c : Char) : Nat :=
  if c.isDigit then c.toNat - 48
  else if 97 ≤ c.toNat ∧ c.toNat ≤ 102 then c.toNat - 87
  else c.toNat - 55

/-- Hexadecimal digit test (`0-9`, `a-f`, `A-F`). -/
def isHexDigit (c : Char) : Bool :=
  c.isDigit ∨ (97 ≤ c.toNat ∧ c.toNat ≤ 102) ∨ (65 ≤ c.toNat ∧ c.toNat ≤ 70)

/-- Parse a leading run of decimal digits, ignoring anything after it;
`none` when there is no leading digit (the `NaN` case of `parseInt`). -/
def parseDecDigits (cs : List Char) : Option Nat :=
  match cs.takeWhile Char.isDigit with
  | [] => none
  | ds => some (ds.foldl (fun a c => 10 * a + digitVal c) 0)

/-- Parse a leading run of hexadecimal digits. -/
def parseHexDigits (cs : List Char) : Option Nat :=
  match cs.takeWhile isHexDigit with
  | [] => none
  | ds => some (ds.foldl (fun a c => 16 * a + hexVal c) 0)

/-- Magnitude part of `parseInt`: a `0x`/`0X` prefix switches to
hexadecimal, otherwise a leading run of decimal digits is parsed. -/
def parseIntBody (cs : List Char) : Option Nat :=
  match cs with
  | '0' :: x :: rest =>
    if x = 'x' ∨ x = 'X' then parseHexDigits rest else parseDecDigits cs
  | _ => parseDecDigits cs

/-- Models JavaScript `parseInt(s)` (radix auto-detection, default 10):
leading whitespace is skipped, an optional sign is consumed, then a leading
digit run is parsed; `none` models the `NaN` result. -/
def jsParseInt (s : String) : Option Int :=
  match s.data.dropWhile isWs with
  | '-' :: rest => (parseIntBody rest).map (fun n => -(n : Int))
  | '+' :: rest => (parseIntBody rest).map (fun n => (n : Int))
  | cs => (parseIntBody cs).map (fun n => (n : Int))

/-! ### JavaScript runtime values -/

/-- JavaScript runtime values that can occur in a localization payload.
`obj` is an insertion-ordered association list, modelling a plain object
(`Object.entries` order); keys of an object are pairwise distinct in any
value produced by the JavaScript runtime. -/
inductive JVal where
  | str (s : String)
  | num (n : Int)
  | boolean (b : Bool)
  | null
  | arr (items : List JVal)
  | obj (fields : List (String × JVal))
deriving Repr

/-! ### countWordsInRecord (src/mod.ts lines 229-247) -/

mutual

/-- Embedding of `countWordsInRecord`: arrays sum over their items, objects
sum over their values (`Object.values`), strings contribute
`trim().split(/\s+/).filter(Boolean).length`, and anything else counts 0.
The `Array.isArray` test is matched first, exactly as in the source. -/
def countWordsInRecord : JVal → Nat
  | .arr items => countWordsInList items
  | .obj fields => countWordsInFields fields
  | .str s => wordCount s
  | _ => 0

/-- Sum of `countWordsInRecord` over the items of an array
(`payload.reduce((acc, item) => acc + this.countWordsInRecord(item), 0)`). -/
def countWordsInList : List JVal → Nat
  | [] => 0
  | v :: rest => countWordsInRecord v + countWordsInList rest

/-- Sum of `countWordsInRecord` over the values of an object
(`Object.values(payload).reduce(...)`). -/
def countWordsInFields : List (String × JVal) → Nat
  | [] => 0
  | kv :: rest => countWordsInRecord kv.2 + countWordsInFields rest

end

mutual

/-- Specification-side flattening: the leaf strings of a value, in order,
reachable through nested arrays and string-keyed mappings ("counting a
nested structure equals the sum of counting its flattened leaf strings"). -/
def leafStrings : JVal → List String
  | .str s => [s]
  | .arr items => leafStringsList items
  | .obj fields => leafStringsFields fields
  | _ => []

/-- Leaf strings of an array's items, in order. -/
def leafStringsList : List JVal → List String
  | [] => []
  | v :: rest => leafStrings v ++ leafStringsList rest

/-- Leaf strings of an object's values, in order. -/
def leafStringsFields : List (String × JVal) → List String
  | [] => []
  | kv :: rest => leafStrings kv.2 ++ leafStringsFields rest

end

/-! ### extractPayloadChunks (src/mod.ts lines 194-222) -/

/-- The string-valued entries of a payload, in order; non-string values are
skipped exactly as the chunker's `typeof value === "string"` test does.
Used to state the partition property of the Chunker. -/
def stringEntries (payload : List (String × JVal)) : List (String × String) :=
  payload.filterMap (fun kv =>
    match kv.2 with
    | .str s => some (kv.1, s)
    | _ => none)

/-- A chunk (`Record<string, string>`) viewed as a JavaScript object, as it
is passed to `countWordsInRecord` inside the chunker. -/
def chunkAsJVal (chunk : List (String × String)) : JVal :=
  .obj (chunk.map fun kv => (kv.1, .str kv.2))

/-- Loop of `extractPayloadChunks`.  `cur`/`cnt` are `currentChunk` and
`currentChunkItemCount`; the remaining entry list plays the role of the
index `i`, with `rest = []` exactly when `i === payloadEntries.length - 1`.
The `|| 250` / `|| 25` fallbacks (JavaScript falsiness of `0`) are modelled
by the `= 0` tests.  When the loop ends (`[]`), a non-empty `cur` is
discarded, exactly as in the source, where the final push happens only
inside the `typeof value === "string"` branch. -/
def extractPayloadChunksGo (batchSize idealBatchItemSize : Int)
    (cur : List (String × String)) (cnt : Nat) :
    List (String × JVal) → List (List (String × String))
  | [] => []
  | (k, v) :: rest =>
    match v with
    | .str s =>
      let cur' := cur ++ [(k, s)]
      let cnt' := cnt + 1
      if (countWordsInRecord (chunkAsJVal cur') : Int) >
            (if idealBatchItemSize = 0 then 250 else idealBatchItemSize)
          ∨ (cnt' : Int) ≥ (if batchSize = 0 then 25 else batchSize)
          ∨ rest.isEmpty then
        cur' :: extractPayloadChunksGo batchSize idealBatchItemSize [] 0 rest
      else
        extractPayloadChunksGo batchSize idealBatchItemSize cur' cnt' rest
    | _ => extractPayloadChunksGo batchSize idealBatchItemSize cur cnt rest

/-- Embedding of `extractPayloadChunks`, parameterized by the engine's
`batchSize` and `idealBatchItemSize` configuration values (the constructor
performs no range validation on them, hence `Int`). -/
def extractPayloadChunks (batchSize idealBatchItemSize : Int)
    (payload : List (String × JVal)) : List (List (String × String)) :=
  extractPayloadChunksGo batchSize idealBatchItemSize [] 0 payload

/-! ### Object.assign merge used by _localizeRaw (src/mod.ts line 117) -/

/-- One assignment `target[k] = v` of `Object.assign`: an existing key keeps
its position and gets the new value, a fresh key is appended. -/
def assignPair (acc : List (String × String)) (kv : String × String) :
    List (String × String) :=
  if acc.any (fun e => e.1 = kv.1) then
    acc.map (fun e => if e.1 = kv.1 then (e.1, kv.2) else e)
  else acc ++ [kv]

/-- Assign all entries of one source object into the accumulator. -/
def assignInto (acc : List (String × String)) (chunk : List (String × String)) :
    List (String × String) :=
  chunk.foldl assignPair acc

/-- Models `Object.assign({}, ...processedPayloadChunks)`. -/
def mergeChunks (chunks : List (List (String × String))) : List (String × String) :=
  chunks.foldl assignInto []

/-! ### _localizeRaw and the typed front-ends (src/mod.ts lines 80-398)

The remote service is an external collaborator; `respond` maps each sent
chunk to the `data` record of the corresponding successful reply.  The
locale pair, fast flag, reference/hints and the per-call workflow id are
forwarded verbatim to the remote and do not influence the client-side data
flow, so they are folded into `respond`; the progress callback and the
abort signal are side-effect-only and not part of the data model. -/

/-- Embedding of `_localizeRaw`: chunk the payload, obtain one reply per
chunk (sequentially, in order), and merge all replies with `Object.assign`. -/
def _localizeRaw (batchSize idealBatchItemSize : Int)
    (respond : List (String × String) → List (String × String))
    (payload : List (String × JVal)) : List (String × String) :=
  mergeChunks ((extractPayloadChunks batchSize idealBatchItemSize payload).map respond)

/-- Embedding of `localizeObject`, which returns `_localizeRaw` unchanged. -/
def localizeObject (batchSize idealBatchItemSize : Int)
    (respond : List (String × String) → List (String × String))
    (obj : List (String × JVal)) : List (String × String) :=
  _localizeRaw batchSize idealBatchItemSize respond obj

/-- A well-behaved remote that translates each entry in place: the reply to
a chunk has exactly the chunk's keys, in order, each value translated by
`tr` (which may consult the key). -/
def respondWith (tr : String → String → String) :
    List (String × String) → List (String × String) :=
  fun chunk => chunk.map fun kv => (kv.1, tr kv.1 kv.2)

/-- The record `{item_0: s0, item_1: s1, ...}` built by
`localizeStringArray`'s reduce. -/
def stringArrayRecord (strings : List String) : List (String × JVal) :=
  strings.mapIdx fun i s => ("item_" ++ natToStr i, JVal.str s)

/-- Embedding of `localizeStringArray`: build the indexed record, localize
it as an object, and return `Object.values(result)` (all values are already
strings, so the `String(value)` coercion is the identity). -/
def localizeStringArray (batchSize idealBatchItemSize : Int)
    (respond : List (String × String) → List (String × String))
    (strings : List String) : List String :=
  (localizeObject batchSize idealBatchItemSize respond (stringArrayRecord strings)).map
    Prod.snd

/-- A chat message (`{name, text}`). -/
structure ChatMsg where
  name : String
  text : String
deriving Repr, DecidableEq

/-- The key `` `chat_${index}` `` synthesized by `localizeChat`. -/
def chatKey (i : Nat) : String := "chat_" ++ natToStr i

/-- The record `{chat_0: text0, ...}` built by `localizeChat`'s reduce. -/
def chatRecord (chat : List ChatMsg) : List (String × JVal) :=
  chat.mapIdx fun i m => (chatKey i, JVal.str m.text)

/-- Models `parseInt(key.split("_")[1])`: the piece after the first
underscore is fed to `parseInt`; a missing piece (no underscore) gives
`parseInt(undefined) = NaN`, modelled as `none`. -/
def chatKeyIndex (key : String) : Option Int :=
  match (jsSplit '_' key).get? 1 with
  | none => none
  | some seg => jsParseInt seg

/-- Models JavaScript array indexing `arr[x]` where `x` is the result of a
`parseInt` (`none` = `NaN`): a `NaN`, negative or out-of-range index gives
`undefined`, modelled by `none`. -/
def jsIndex {α : Type} (l : List α) (idx : Option Int) : Option α :=
  match idx with
  | none => none
  | some i => if i < 0 then none else l.get? i.toNat

/-- Models exception propagation through `Array.prototype.map`: the result
list, or `none` as soon as one element's function throws. -/
def mapOrThrow {α β : Type} (g : α → Option β) : List α → Option (List β)
  | [] => some []
  | a :: rest =>
    match g a with
    | none => none
    | some b =>
      match mapOrThrow g rest with
      | none => none
      | some bs => some (b :: bs)

/-- One entry of the reassembly step of `localizeChat` (src/mod.ts lines
394-398): `{name: chat[parseInt(key.split("_")[1])].name, text: value}`.
Indexing with an invalid parsed index yields `undefined`, and reading
`.name` of `undefined` throws a `TypeError`; the throw is modelled by
`none` through the `Option.map`. -/
def localizeChatStep (chat : List ChatMsg) (kv : String × String) :
    Option ChatMsg :=
  (jsIndex chat (chatKeyIndex kv.1)).map (fun m => ⟨m.name, kv.2⟩)

/-- Reassembly over all reply entries; `none` as soon as one entry throws. -/
def localizeChatAssemble (chat : List ChatMsg) (localized : List (String × String)) :
    Option (List ChatMsg) :=
  mapOrThrow (localizeChatStep chat) localized

/-- Embedding of `localizeChat`: synthesize the chat record, run the
chunked pipeline, and reassemble from the merged reply. -/
def localizeChat (batchSize idealBatchItemSize : Int)
    (respond : List (String × String) → List (String × String))
    (chat : List ChatMsg) : Option (List ChatMsg) :=
  localizeChatAssemble chat
    (_localizeRaw batchSize idealBatchItemSize respond (chatRecord chat))

/-! ### localizeChunk HTTP response handling (src/mod.ts lines 130-187) -/

/-- Outcome of the `fetch` to `{apiUrl}/i18n`, as observed by
`localizeChunk`: HTTP status and status text, the raw body text (read on
error paths), and the parsed JSON body's `data` and `error` fields (read on
the success path; `none` models an absent or null field). -/
structure I18nHttpResponse where
  status : Nat
  statusText : String
  bodyText : String
  jsonData : Option (List (String × String))
  jsonError : Option String

/-- The 5xx message template of `localizeChunk`. -/
def serverErrorMsg (status : Nat) (statusText bodyText : String) : String :=
  "Server error (" ++ natToStr status ++ "): " ++ statusText ++ ". " ++
    bodyText ++ ". This may be due to temporary service issues."

/-- Embedding of `localizeChunk`'s response handling.  `res.ok` is
`200 ≤ status ≤ 299`; the error branches mirror the source's order
(5xx, then 400, then anything else), and on a 2xx reply a missing `data`
with a present `error` is re-thrown while a missing `data` without `error`
yields the empty record (`jsonResponse.data || {}`). -/
def localizeChunkResponse (r : I18nHttpResponse) :
    Except String (List (String × String)) :=
  if ¬ (200 ≤ r.status ∧ r.status ≤ 299) then
    if 500 ≤ r.status ∧ r.status < 600 then
      .error (serverErrorMsg r.status r.statusText r.bodyText)
    else if r.status = 400 then
      .error ("Invalid request: " ++ r.statusText)
    else
      .error r.bodyText
  else
    match r.jsonData with
    | some d => .ok d
    | none =>
      match r.jsonError with
      | some e => .error e
      | none => .ok []

/-! ### HTML document model (localizeHtml, src/mod.ts lines 412-564)

`localizeHtml` parses the input into a DOM via `DOMParser` and serializes
the mutated DOM at the end; parsing/serialization are runtime services, so
the embedding works directly on the parsed tree.  A node is an element
(tag, attributes in document order, children in document order) or a text
node.  `text/html` parsing always yields an `<html>` root with `<head>` and
`<body>` children, so a document is modelled as the root's attribute list
plus the head and body nodes. -/

/-- A DOM node: element or text. -/
inductive HNode where
  | element (tag : String) (attrs : List (String × String)) (children : List HNode)
  | text (s : String)
deriving Repr

/-- A parsed `text/html` document: the `<html>` root's attributes and its
`<head>` and `<body>` child nodes. -/
structure HtmlDoc where
  htmlAttrs : List (String × String)
  head : HNode
  body : HNode
deriving Repr

/-- Child list of a node (a text node has none). -/
def childrenOf : HNode → List HNode
  | .element _ _ cs => cs
  | .text _ => []

/-- The significance filter used throughout `localizeHtml`:
`n.nodeType === 1 || (n.nodeType === 3 && n.textContent?.trim())` — an
element, or a text node whose trimmed content is non-empty. -/
def significant : HNode → Bool
  | .element _ _ _ => true
  | .text s => !(jsTrimList s.data).isEmpty

/-- The fixed `LOCALIZABLE_ATTRIBUTES` table. -/
def LOCALIZABLE_ATTRIBUTES (tag : String) : List String :=
  if tag = "meta" then ["content"]
  else if tag = "img" then ["alt"]
  else if tag = "input" then ["placeholder"]
  else if tag = "a" then ["title"]
  else []

/-- Membership in the fixed `UNLOCALIZABLE_TAGS = ["script", "style"]`. -/
def isUnlocalizableTag (tag : String) : Bool := tag = "script" ∨ tag = "style"

/-- Models `element.getAttribute(name)`: first attribute with that name. -/
def getAttribute (attrs : List (String × String)) (name : String) : Option String :=
  (attrs.find? (fun kv => kv.1 = name)).map Prod.snd

/-- Models `element.setAttribute(name, value)`: an existing attribute keeps
its position and gets the new value, otherwise the attribute is appended. -/
def setAttribute (attrs : List (String × String)) (name value : String) :
    List (String × String) :=
  if attrs.any (fun kv => kv.1 = name) then
    attrs.map (fun kv => if kv.1 = name then (kv.1, value) else kv)
  else attrs ++ [(name, value)]

/-! Extraction phase (`processNode`/`getPath`).  The source computes each
node's path by walking parent links upward and indexing the node among its
significant siblings; a tree embedding has no parent links, so the same
path is accumulated on the way down: entering the `i`-th significant child
appends `/i`.  `blocked` holds exactly when some ancestor's tag is in
`UNLOCALIZABLE_TAGS` (the early-return ancestor check of `processNode`);
the node's own tag only blocks its descendants, as in the source. -/

mutual

/-- Extraction for one node: the early ancestor check, then a non-blank
text node is recorded under its path, and an element records each present
non-empty localizable attribute under `path#attr` before recursing into its
significant children. -/
def extractNode (blocked : Bool) (path : String) : HNode → List (String × String)
  | .text s =>
    if blocked then []
    else if jsTrim s = "" then []
    else [(path, jsTrim s)]
  | .element tag attrs children =>
    if blocked then []
    else
      ((LOCALIZABLE_ATTRIBUTES tag).filterMap (fun a =>
        match getAttribute attrs a with
        | none => none
        | some v => if v = "" then none else some (path ++ "#" ++ a, v))) ++
      extractChildren (blocked || isUnlocalizableTag tag) path 0 children

/-- Extraction over a child list; `i` is the number of significant children
already passed, so a significant child is visited at path `path/i` and
insignificant children are skipped without consuming an index. -/
def extractChildren (blocked : Bool) (path : String) (i : Nat) :
    List HNode → List (String × String)
  | [] => []
  | c :: rest =>
    if significant c then
      extractNode blocked (path ++ "/" ++ natToStr i) c ++
        extractChildren blocked path (i + 1) rest
    else
      extractChildren blocked path i rest

end

/-- Whole-document extraction: the significant children of `doc.head` (at
paths `head/i`), then those of `doc.body` (at paths `body/i`). -/
def extractDoc (doc : HtmlDoc) : List (String × String) :=
  extractChildren false "head" 0 (childrenOf doc.head) ++
    extractChildren false "body" 0 (childrenOf doc.body)

/-! Injection phase.  A mutated node is addressed by its raw child-index
route from the chosen root (`[]` is the root itself). -/

/-- The node reached from `n` by the raw child-index route `loc`. -/
def nodeAt : List Nat → HNode → Option HNode
  | [], n => some n
  | i :: rest, n =>
    match (childrenOf n).get? i with
    | none => none
    | some c => nodeAt rest c

/-- Rewrite the node at raw route `loc` with `f`, leaving everything else
in place; an out-of-range route changes nothing. -/
def updateAt (f : HNode → HNode) : List Nat → HNode → HNode
  | [], n => f n
  | _ :: _, .text s => .text s
  | i :: rest, .element tag attrs cs =>
    match cs.get? i with
    | none => .element tag attrs cs
    | some c => .element tag attrs (cs.set i (updateAt f rest c))

/-- Raw index of the `j`-th significant child, i.e. of
`Array.from(parent.childNodes).filter(significant)[j]`. -/
def sigIndexToRaw : Nat → List HNode → Option Nat
  | _, [] => none
  | j, c :: rest =>
    if significant c then
      match j with
      | 0 => some 0
      | j' + 1 => (sigIndexToRaw j' rest).map (· + 1)
    else
      (sigIndexToRaw j rest).map (· + 1)

/-- The descent loop of the injection phase (src/mod.ts lines 543-552).
State: `parentLoc` is the route of the loop's `parent` (always an element;
initially the root), and `current` the route of `current` (`none` models
`null`).  Each path segment selects `siblings[parseInt(seg)]` among the
significant children of `parent` (`undefined`/negative/`NaN` give `null`,
and `parent` is left unchanged for the next segment, exactly as in the
source's `|| null` loop), and `parent` advances only when the selected
node is an element. -/
def descend (root : HNode) : List String → List Nat → Option (List Nat) →
    Option (List Nat)
  | [], _, current => current
  | seg :: restSegs, parentLoc, _ =>
    let cs := match nodeAt parentLoc root with
      | some n => childrenOf n
      | none => []
    let current' : Option (List Nat) :=
      match jsParseInt seg with
      | none => none
      | some j =>
        if j < 0 then none
        else
          match sigIndexToRaw j.toNat cs with
          | none => none
          | some raw => some (parentLoc ++ [raw])
    let parentLoc' : List Nat :=
      match current' with
      | some loc =>
        match nodeAt loc root with
        | some (.element _ _ _) => loc
        | _ => parentLoc
      | none => parentLoc
    descend root restSegs parentLoc' current'

/-- The mutation at the reached node: set the named attribute, or assign
`textContent` (which, on an element, replaces all children with a single
text node; on a text node, replaces its data).  Setting an attribute on a
text node would throw in JavaScript and cannot be reached from extracted
paths; it is modelled as the identity. -/
def writeFn (value : String) (attrName : Option String) : HNode → HNode :=
  fun m =>
    match attrName with
    | some a =>
      match m with
      | .element tag attrs cs => .element tag (setAttribute attrs a value) cs
      | .text s => .text s
    | none =>
      match m with
      | .text _ => .text value
      | .element tag attrs _ => .element tag attrs [.text value]

/-- The write at the end of one injection step; a `null` current writes
nothing. -/
def injectValueAt (value : String) (attrName : Option String)
    (current : Option (List Nat)) (root : HNode) : HNode :=
  match current with
  | none => root
  | some loc => updateAt (writeFn value attrName) loc root

/-- One iteration of the `Object.entries(localizedContent).forEach` loop:
split the key into node path and optional attribute, pick `doc.head` when
the first segment is `head` and `doc.body` otherwise, replay the descent,
and write the value. -/
def injectEntry (doc : HtmlDoc) (path value : String) : HtmlDoc :=
  let parts := jsSplit '#' path
  let nodePath := (parts.get? 0).getD ""
  let attrName := parts.get? 1
  let segs := jsSplit '/' nodePath
  let rootTag := (segs.get? 0).getD ""
  let indices := segs.tail
  if rootTag = "head" then
    { doc with head :=
        (injectValueAt value attrName
          (descend doc.head indices [] (some [])) doc.head) }
  else
    { doc with body :=
        (injectValueAt value attrName
          (descend doc.body indices [] (some [])) doc.body) }

/-- Embedding of `localizeHtml` (DOM path): extract, run the chunked
translation pipeline on the extracted record, set the root's `lang`
attribute to the target locale, then replay every merged reply entry
through the injection loop, in order. -/
def localizeHtml (batchSize idealBatchItemSize : Int)
    (respond : List (String × String) → List (String × String))
    (doc : HtmlDoc) (targetLocale : String) : HtmlDoc :=
  let extractedContent := extractDoc doc
  let localizedContent := _localizeRaw batchSize idealBatchItemSize respond
    (extractedContent.map (fun kv => (kv.1, JVal.str kv.2)))
  let doc1 : HtmlDoc :=
    { doc with htmlAttrs := setAttribute doc.htmlAttrs "lang" targetLocale }
  localizedContent.foldl (fun d kv => injectEntry d kv.1 kv.2) doc1

/-! Specification-side companions used to state the HTML claims. -/

mutual

/-- Specification-side description of a fully translated node: under a
translation oracle `tr` keyed by extracted path, every extracted text node
carries the translation of its trimmed content, every extracted attribute
carries the translation of its value, and everything under an
unlocalizable tag (and every insignificant or non-extracted item) is
untouched. -/
def specTranslateNode (tr : String → String → String) (blocked : Bool)
    (path : String) : HNode → HNode
  | .text s =>
    if blocked then .text s
    else if jsTrim s = "" then .text s
    else .text (tr path (jsTrim s))
  | .element tag attrs children =>
    if blocked then .element tag attrs children
    else
      .element tag
        (attrs.map (fun kv =>
          if kv.1 ∈ LOCALIZABLE_ATTRIBUTES tag ∧ kv.2 ≠ "" then
            (kv.1, tr (path ++ "#" ++ kv.1) kv.2)
          else kv))
        (specTranslateChildren tr (blocked || isUnlocalizableTag tag) path 0 children)

/-- Child-list companion of `specTranslateNode`, mirroring the index
bookkeeping of `extractChildren`. -/
def specTranslateChildren (tr : String → String → String) (blocked : Bool)
    (path : String) (i : Nat) : List HNode → List HNode
  | [] => []
  | c :: rest =>
    if significant c then
      specTranslateNode tr blocked (path ++ "/" ++ natToStr i) c ::
        specTranslateChildren tr blocked path (i + 1) rest
    else
      c :: specTranslateChildren tr blocked path i rest

end

mutual

/-- A node with the contents of unlocalizable (`script`/`style`) subtrees
removed; used to state that extraction never reads inside such subtrees. -/
def stripUnlocalizable : HNode → HNode
  | .text s => .text s
  | .element tag attrs cs =>
    if isUnlocalizableTag tag then .element tag attrs []
    else .element tag attrs (stripUnlocalizableList cs)

/-- Child-list companion of `stripUnlocalizable`. -/
def stripUnlocalizableList : List HNode → List HNode
  | [] => []
  | c :: cs => stripUnlocalizable c :: stripUnlocalizableList cs

end

/-! Specification-side companions for the HTML round-trip proof: integer
locations for extracted entries, their string encoding, skeletons (the part
of a tree the injection descent can observe), and statically resolved
writes. -/

/-- The `"/i1/i2/..."` suffix a descent through significant-child indices
appends to a path. -/
def idxSuffix : List Nat → String
  | [] => ""
  | i :: rest => "/" ++ natToStr i ++ idxSuffix rest

/-- The key under which an entry at significant-index route `idxs` (and
optional attribute) below `path` is recorded. -/
def encodeKey (path : String) (idxs : List Nat) (attr : Option String) : String :=
  match attr with
  | none => path ++ idxSuffix idxs
  | some a => path ++ idxSuffix idxs ++ "#" ++ a

mutual

/-- Extracted entries of a subtree as integer significant-index routes:
the location-level counterpart of `extractNode` at `blocked = false`. -/
def extractNodeLocs : HNode → List (List Nat × Option String × String)
  | .text s => if jsTrim s = "" then [] else [([], none, jsTrim s)]
  | .element tag attrs children =>
    ((LOCALIZABLE_ATTRIBUTES tag).filterMap (fun a =>
      match getAttribute attrs a with
      | none => none
      | some v => if v = "" then none else some (([] : List Nat), some a, v))) ++
    (if isUnlocalizableTag tag then [] else extractChildrenLocs 0 children)

/-- Location-level counterpart of `extractChildren`. -/
def extractChildrenLocs (i : Nat) : List HNode → List (List Nat × Option String × String)
  | [] => []
  | c :: rest =>
    if significant c then
      (extractNodeLocs c).map (fun e => (i :: e.1, e.2)) ++
        extractChildrenLocs (i + 1) rest
    else
      extractChildrenLocs i rest

end

/-- Resolve a significant-index route to the raw child-index route and the
reached node. -/
def sigResolve : List Nat → HNode → Option (List Nat × HNode)
  | [], n => some ([], n)
  | j :: rest, n =>
    match sigIndexToRaw j (childrenOf n) with
    | none => none
    | some raw =>
      match (childrenOf n).get? raw with
      | none => none
      | some c => (sigResolve rest c).map (fun pr => (raw :: pr.1, pr.2))

/-- What the injection descent can observe of a tree: element/text shape
and text blankness. -/
inductive Skel where
  | elem (children : List Skel)
  | txt (blank : Bool)
deriving Repr

mutual

/-- Skeleton of a node. -/
def skelOf : HNode → Skel
  | .text s => .txt ((jsTrimList s.data).isEmpty)
  | .element _ _ cs => .elem (skelOfList cs)

/-- Skeletons of a node list. -/
def skelOfList : List HNode → List Skel
  | [] => []
  | c :: cs => skelOf c :: skelOfList cs

end

/-- Number of significant nodes in a list. -/
def countSig (cs : List HNode) : Nat := (cs.filter significant).length

/-- One injection step restricted to a chosen root node (the body of
`injectEntry` after the root has been selected). -/
def injectIntoRoot (n : HNode) (path value : String) : HNode :=
  let parts := jsSplit '#' path
  let nodePath := (parts.get? 0).getD ""
  let attrName := parts.get? 1
  let segs := jsSplit '/' nodePath
  injectValueAt value attrName (descend n segs.tail [] (some [])) n

/-- A statically resolved write: target raw route (if the route resolves),
attribute selector, and value. -/
def applyResolved (n : HNode) (w : Option (List Nat) × Option String × String) :
    HNode :=
  match w.1 with
  | none => n
  | some loc => updateAt (writeFn w.2.2 w.2.1) loc n

/-- The resolved writes that a translation oracle `tr` induces on the
extracted entries of `c` below `path`. -/
def resolvedWrites (tr : String → String → String) (path : String) (c : HNode) :
    List (Option (List Nat) × Option String × String) :=
  (extractNodeLocs c).map (fun e =>
    ((sigResolve e.1 c).map Prod.fst, e.2.1, tr (encodeKey path e.1 e.2.1) e.2.2))

/-- Resolved writes for a child-list suffix whose routes are resolved
against the full list `L`. -/
def resolvedChildWrites (tr : String → String → String) (path : String)
    (L : List HNode) (i : Nat) (cs : List HNode) :
    List (Option (List Nat) × Option String × String) :=
  (extractChildrenLocs i cs).map (fun e =>
    (match e.1 with
     | [] => none
     | j :: rest =>
       match sigIndexToRaw j L with
       | none => none
       | some raw =>
         match L.get? raw with
         | none => none
         | some c => ((sigResolve rest c).map (fun pr => raw :: pr.1)),
     e.2.1, tr (encodeKey path e.1 e.2.1) e.2.2))

/-- Spec-side translation of a whole extraction root (`doc.head` or
`doc.body`): the root node's own tag and attributes are untouched, its
children are translated below the given root path. -/
def specTranslateRoot (tr : String → String → String) (root : String) :
    HNode → HNode
  | .text s => .text s
  | .element tag attrs cs =>
    .element tag attrs (specTranslateChildren tr false root 0 cs)

mutual

/-- Well-formedness produced by any real DOM: every element's attribute
names are pairwise distinct. -/
def wfAttrs : HNode → Bool
  | .text _ => true
  | .element _ attrs cs => decide ((attrs.map Prod.fst).Nodup) && wfAttrsList cs

/-- List version of `wfAttrs`. -/
def wfAttrsList : List HNode → Bool
  | [] => true
  | c :: cs => wfAttrs c && wfAttrsList cs

end

/-- The shape of the node an extracted entry targets: a text-content entry
targets a text node whose trimmed content is the extracted value, and an
attribute entry targets an element carrying that non-empty attribute value
under a tag listed for it in `LOCALIZABLE_ATTRIBUTES`. -/
def EntryTarget (attr : Option String) (v : String) (m : HNode) : Prop :=
  match attr with
  | none => ∃ s, m = HNode.text s ∧ jsTrim s = v ∧ v ≠ ""
  | some a => ∃ tag attrs cs, m = HNode.element tag attrs cs ∧
      a ∈ LOCALIZABLE_ATTRIBUTES tag ∧ getAttribute attrs a = some v ∧ v ≠ ""

/-! ### validateEngineParams (src/mod.ts lines 30-41) and the constructor -/

/-- Constructor argument `Partial<EngineParams>`: every field may be
absent.  Numeric fields are JavaScript numbers; integers suffice for the
claims about them. -/
structure EnginePartialParams where
  apiKey : Option String
  apiUrl : Option String
  batchSize : Option Int
  idealBatchItemSize : Option Int

/-- The validated engine configuration stored by the constructor. -/
structure EngineParams where
  apiKey : String
  apiUrl : String
  batchSize : Int
  idealBatchItemSize : Int
deriving Repr, DecidableEq

/-- Embedding of `validateEngineParams`: `!config.apiKey` rejects an absent
or empty key; the remaining fields use `??` (nullish-coalescing) defaults
and are not otherwise validated. -/
def validateEngineParams (config : EnginePartialParams) : Except String EngineParams :=
  match config.apiKey with
  | none => .error "apiKey is required"
  | some k =>
    if k = "" then .error "apiKey is required"
    else
      .ok { apiKey := k
            apiUrl := config.apiUrl.getD "https://engine.lingo.dev"
            batchSize := config.batchSize.getD 25
            idealBatchItemSize := config.idealBatchItemSize.getD 250 }

/-! ### whoami (src/mod.ts lines 692-730) -/

/-- Outcome of the `fetch` to `{apiUrl}/whoami`: status, status text, and
the parsed JSON payload's `email` and `id` fields (`none` models an absent
field). -/
structure WhoamiHttpResponse where
  status : Nat
  statusText : String
  email : Option String
  id : Option String

/-- The value `{email, id}` returned by a successful `whoami`. -/
structure WhoamiInfo where
  email : String
  id : Option String
deriving Repr, DecidableEq

/-- The 5xx message template of `whoami` (no body text, unlike
`localizeChunk`'s). -/
def whoamiServerErrorMsg (status : Nat) (statusText : String) : String :=
  "Server error (" ++ natToStr status ++ "): " ++ statusText ++
    ". This may be due to temporary service issues."

/-- Embedding of `whoami`: on `res.ok`, a falsy `payload?.email` (absent or
empty) yields `null`, otherwise `{email, id}`; a 5xx status throws the
server-error message, which the surrounding `catch` re-throws because it
contains "Server error"; any other failure status falls through to `null`.
Transport-level exceptions (which the `catch` also maps to `null`) are
outside this pure model. -/
def whoami (r : WhoamiHttpResponse) : Except String (Option WhoamiInfo) :=
  if 200 ≤ r.status ∧ r.status ≤ 299 then
    match r.email with
    | none => .ok none
    | some e => if e = "" then .ok none else .ok (some ⟨e, r.id⟩)
  else if 500 ≤ r.status ∧ r.status < 600 then
    .error (whoamiServerErrorMsg r.status r.statusText)
  else
    .ok none

/-! ## Theorems -/

/-- Claim C6: the Word-Counter (`countWordsInRecord`) is a total function
that equals the sum, over all leaf strings reachable through nested arrays
and string-keyed mappings, of the number of maximal whitespace-delimited
non-empty tokens (`wordCount`) of that string; leaves of any other type
contribute zero (they produce no leaf strings). -/
theorem claim6_countWords_eq_sum_over_leaves :
    ∀ v : JVal, countWordsInRecord v = ((leafStrings v).map wordCount).sum := by
  suffices H : ∀ n : Nat,
      (∀ v : JVal, sizeOf v ≤ n →
        countWordsInRecord v = ((leafStrings v).map wordCount).sum) ∧
      (∀ l : List JVal, sizeOf l ≤ n →
        countWordsInList l = ((leafStringsList l).map wordCount).sum) ∧
      (∀ fs : List (String × JVal), sizeOf fs ≤ n →
        countWordsInFields fs = ((leafStringsFields fs).map wordCount).sum) by
    exact fun v => (H (sizeOf v)).1 v le_rfl
  intro n
  induction n with
  | zero =>
    refine ⟨fun v hv => ?_, fun l hl => ?_, fun fs hfs => ?_⟩
    · cases v <;> simp at hv
    · cases l <;> simp at hl
    · cases fs <;> simp at hfs
  | succ n ih =>
    obtain ⟨ihV, ihL, ihF⟩ := ih
    refine ⟨fun v hv => ?_, fun l hl => ?_, fun fs hfs => ?_⟩
    · cases v with
      | str s => simp [countWordsInRecord, leafStrings]
      | num k => simp [countWordsInRecord, leafStrings]
      | boolean b => simp [countWordsInRecord, leafStrings]
      | null => simp [countWordsInRecord, leafStrings]
      | arr items =>
        have h : sizeOf items ≤ n := by simp at hv; omega
        simp [countWordsInRecord, leafStrings, ihL items h]
      | obj fields =>
        have h : sizeOf fields ≤ n := by simp at hv; omega
        simp [countWordsInRecord, leafStrings, ihF fields h]
    · cases l with
      | nil => simp [countWordsInList, leafStringsList]
      | cons v rest =>
        have h1 : sizeOf v ≤ n := by simp at hl; omega
        have h2 : sizeOf rest ≤ n := by simp at hl; omega
        simp [countWordsInList, leafStringsList, ihV v h1, ihL rest h2]
    · cases fs with
      | nil => simp [countWordsInFields, leafStringsFields]
      | cons kv rest =>
        obtain ⟨k, v⟩ := kv
        have h1 : sizeOf v ≤ n := by simp at hfs; omega
        have h2 : sizeOf rest ≤ n := by simp at hfs; omega
        simp [countWordsInFields, leafStringsFields, ihV v h1, ihF rest h2]

/-- Claim C7, counterexample: the constructor performs no `≥ 1` validation
on `batchSize`; the explicit input `batchSize = 0` is accepted and stored
verbatim in the resulting configuration, contradicting the claim that the
resulting config satisfies `batchSize ≥ 1`. -/
theorem claim7_cex_batchSize_zero_accepted :
    validateEngineParams ⟨some "key", none, some 0, none⟩ =
      .ok ⟨"key", "https://engine.lingo.dev", 0, 250⟩ := rfl

/-- Claim C7, amended: construction succeeds iff `apiKey` is present and
non-empty (an absent or empty key fails with "apiKey is required" before
any network activity), and the resulting config takes `apiUrl` defaulting
to the fixed production endpoint, `batchSize` defaulting to 25 and
`idealBatchItemSize` defaulting to 250 when omitted — but explicit values
are stored without any `≥ 1` validation. -/
theorem claim7_engine_config_validation (c : EnginePartialParams) :
    ((∃ cfg, validateEngineParams c = .ok cfg) ↔
      ∃ k, c.apiKey = some k ∧ k ≠ "") ∧
    (∀ k, c.apiKey = some k → k ≠ "" →
      validateEngineParams c =
        .ok ⟨k, c.apiUrl.getD "https://engine.lingo.dev",
             c.batchSize.getD 25, c.idealBatchItemSize.getD 250⟩) ∧
    ((c.apiKey = none ∨ c.apiKey = some "") →
      validateEngineParams c = .error "apiKey is required") := by
  refine ⟨?_, ?_, ?_⟩
  · cases hc : c.apiKey with
    | none => simp [validateEngineParams, hc]
    | some k =>
      by_cases hk : k = "" <;> simp [validateEngineParams, hc, hk]
  · intro k hk hne
    simp [validateEngineParams, hk, hne]
  · rintro (hc | hc) <;> simp [validateEngineParams, hc]

/-- Claim C7, witness for the amended theorem at concrete inputs. -/
theorem claim7_witness :
    validateEngineParams ⟨some "key", none, none, none⟩ =
      .ok ⟨"key", "https://engine.lingo.dev", 25, 250⟩ :=
  (claim7_engine_config_validation ⟨some "key", none, none, none⟩).2.1
    "key" rfl (by decide)

/-- Claim C5: `localizeChunk`'s response handling.  A 5xx status fails with
the server-error message carrying the status code, the upstream status text
and the response body text; a 400 fails with the invalid-request message
carrying the status text; any other non-2xx fails with the raw body text;
and a 2xx body with no `data` but an `error` field fails with that message. -/
theorem claim5_localizeChunk_error_taxonomy (r : I18nHttpResponse) :
    (500 ≤ r.status ∧ r.status < 600 →
      localizeChunkResponse r =
        .error (serverErrorMsg r.status r.statusText r.bodyText)) ∧
    (r.status = 400 →
      localizeChunkResponse r = .error ("Invalid request: " ++ r.statusText)) ∧
    (¬ (200 ≤ r.status ∧ r.status ≤ 299) → ¬ (500 ≤ r.status ∧ r.status < 600) →
      r.status ≠ 400 → localizeChunkResponse r = .error r.bodyText) ∧
    (∀ e, 200 ≤ r.status ∧ r.status ≤ 299 → r.jsonData = none →
      r.jsonError = some e → localizeChunkResponse r = .error e) := by
  refine ⟨?_, ?_, ?_, ?_⟩
  · intro h5
    have h2 : ¬ (200 ≤ r.status ∧ r.status ≤ 299) := by omega
    simp [localizeChunkResponse, h2, h5]
  · intro h4
    have h2 : ¬ (200 ≤ r.status ∧ r.status ≤ 299) := by omega
    have h5 : ¬ (500 ≤ r.status ∧ r.status < 600) := by omega
    simp [localizeChunkResponse, h2, h5, h4]
  · intro h2 h5 h4
    simp [localizeChunkResponse, h2, h5, h4]
  · intro e h2 hd he
    simp [localizeChunkResponse, h2, hd, he]

/-- Claim C5, witness at concrete responses for each hypothesis-guarded
branch. -/
theorem claim5_witness :
    localizeChunkResponse ⟨500, "Internal Server Error", "boom", none, none⟩ =
      .error (serverErrorMsg 500 "Internal Server Error" "boom") ∧
    localizeChunkResponse ⟨400, "Bad Request", "x", none, none⟩ =
      .error ("Invalid request: " ++ "Bad Request") ∧
    localizeChunkResponse ⟨403, "Forbidden", "denied", none, none⟩ =
      .error "denied" ∧
    localizeChunkResponse ⟨200, "OK", "", none, some "stream failed"⟩ =
      .error "stream failed" :=
  ⟨(claim5_localizeChunk_error_taxonomy _).1 (by decide),
   (claim5_localizeChunk_error_taxonomy _).2.1 rfl,
   (claim5_localizeChunk_error_taxonomy _).2.2.1 (by decide) (by decide)
     (by decide),
   (claim5_localizeChunk_error_taxonomy _).2.2.2 "stream failed" (by decide)
     rfl rfl⟩

/-- Claim C9: `whoami` returns `{email, id}` exactly on a 2xx response
whose payload has a present (JavaScript-truthy, i.e. non-empty) email;
returns `null` on a 2xx payload lacking an email (or with an empty one) and
on any non-5xx failure status; and a 5xx response fails with the
server-error message instead of returning `null`.  The four cases are
exhaustive, so the "exactly when" direction follows. -/
theorem claim9_whoami_taxonomy (r : WhoamiHttpResponse) :
    (∀ e, 200 ≤ r.status ∧ r.status ≤ 299 → r.email = some e → e ≠ "" →
      whoami r = .ok (some ⟨e, r.id⟩)) ∧
    (200 ≤ r.status ∧ r.status ≤ 299 → (r.email = none ∨ r.email = some "") →
      whoami r = .ok none) ∧
    (¬ (200 ≤ r.status ∧ r.status ≤ 299) → ¬ (500 ≤ r.status ∧ r.status < 600) →
      whoami r = .ok none) ∧
    (500 ≤ r.status ∧ r.status < 600 →
      whoami r = .error (whoamiServerErrorMsg r.status r.statusText)) := by
  refine ⟨?_, ?_, ?_, ?_⟩
  · intro e h2 he hne
    simp [whoami, h2, he, hne]
  · rintro h2 (he | he) <;> simp [whoami, h2, he]
  · intro h2 h5
    simp [whoami, h2, h5]
  · intro h5
    have h2 : ¬ (200 ≤ r.status ∧ r.status ≤ 299) := by omega
    simp [whoami, h2, h5]

/-- Claim C9, witness at concrete responses for each hypothesis-guarded
branch. -/
theorem claim9_witness :
    whoami ⟨200, "OK", some "a@b.c", some "u1"⟩ =
      .ok (some ⟨"a@b.c", some "u1"⟩) ∧
    whoami ⟨200, "OK", none, none⟩ = .ok none ∧
    whoami ⟨401, "Unauthorized", none, none⟩ = .ok none ∧
    whoami ⟨503, "Service Unavailable", none, none⟩ =
      .error (whoamiServerErrorMsg 503 "Service Unavailable") :=
  ⟨(claim9_whoami_taxonomy _).1 "a@b.c" (by decide) rfl (by decide),
   (claim9_whoami_taxonomy _).2.1 (by decide) (Or.inl rfl),
   (claim9_whoami_taxonomy _).2.2.1 (by decide) (by decide),
   (claim9_whoami_taxonomy _).2.2.2 (by decide)⟩

/-! ### Chunker lemmas -/

theorem getLast?_cons_of_ne_nil {α : Type} (a : α) {l : List α} (h : l ≠ []) :
    (a :: l).getLast? = l.getLast? := by
  cases l with
  | nil => exact absurd rfl h
  | cons b bs => exact List.getLast?_cons_cons

theorem stringEntries_cons_str (k : String) (s : String) (rest : List (String × JVal)) :
    stringEntries ((k, JVal.str s) :: rest) = (k, s) :: stringEntries rest := rfl

theorem stringEntries_cons_of_nonstr (k : String) (v : JVal)
    (rest : List (String × JVal)) (h : ∀ s, v ≠ JVal.str s) :
    stringEntries ((k, v) :: rest) = stringEntries rest := by
  cases v
  case str s => exact absurd rfl (h s)
  all_goals rfl

/-- Joining the chunks produced from `entries`, starting from a pending
chunk `cur`, recovers `cur` followed by the string-valued entries of
`entries` — provided the final entry is string-valued, since only the
string branch of the loop can flush the pending chunk at the last index. -/
theorem extractPayloadChunksGo_flatten (bs ibis : Int) :
    ∀ (entries : List (String × JVal)) (cur : List (String × String)) (cnt : Nat),
      (∃ k s, entries.getLast? = some (k, JVal.str s)) →
      (extractPayloadChunksGo bs ibis cur cnt entries).flatten =
        cur ++ stringEntries entries := by
  intro entries
  induction entries with
  | nil => rintro cur cnt ⟨k, s, h⟩; simp at h
  | cons e rest ih =>
    rintro cur cnt ⟨k, s, hlast⟩
    obtain ⟨ek, ev⟩ := e
    by_cases hrest : rest = []
    · subst hrest
      rw [List.getLast?_singleton] at hlast
      obtain ⟨rfl, rfl⟩ : ek = k ∧ ev = JVal.str s := by
        injection hlast with h'
        exact ⟨congrArg Prod.fst h', congrArg Prod.snd h'⟩
      simp [extractPayloadChunksGo, stringEntries]
    · have hlast' : rest.getLast? = some (k, JVal.str s) := by
        rwa [getLast?_cons_of_ne_nil _ hrest] at hlast
      cases ev with
      | str s' =>
        have hgen : ∀ (b : Prop) (inst : Decidable b),
            (@ite _ b inst
                ((cur ++ [(ek, s')]) :: extractPayloadChunksGo bs ibis [] 0 rest)
                (extractPayloadChunksGo bs ibis (cur ++ [(ek, s')]) (cnt + 1)
                  rest)).flatten
              = cur ++ (ek, s') :: stringEntries rest := by
          intro b inst
          by_cases hb : b
          · rw [if_pos hb, List.flatten_cons, ih [] 0 ⟨k, s, hlast'⟩]
            simp
          · rw [if_neg hb, ih (cur ++ [(ek, s')]) (cnt + 1) ⟨k, s, hlast'⟩]
            simp
        simp only [extractPayloadChunksGo]
        rw [stringEntries_cons_str]
        exact hgen _ _
      | num n =>
        simp only [extractPayloadChunksGo]
        rw [stringEntries_cons_of_nonstr _ _ _ (fun s h => JVal.noConfusion h)]
        exact ih cur cnt ⟨k, s, hlast'⟩
      | boolean b =>
        simp only [extractPayloadChunksGo]
        rw [stringEntries_cons_of_nonstr _ _ _ (fun s h => JVal.noConfusion h)]
        exact ih cur cnt ⟨k, s, hlast'⟩
      | null =>
        simp only [extractPayloadChunksGo]
        rw [stringEntries_cons_of_nonstr _ _ _ (fun s h => JVal.noConfusion h)]
        exact ih cur cnt ⟨k, s, hlast'⟩
      | arr items =>
        simp only [extractPayloadChunksGo]
        rw [stringEntries_cons_of_nonstr _ _ _ (fun s h => JVal.noConfusion h)]
        exact ih cur cnt ⟨k, s, hlast'⟩
      | obj fields =>
        simp only [extractPayloadChunksGo]
        rw [stringEntries_cons_of_nonstr _ _ _ (fun s h => JVal.noConfusion h)]
        exact ih cur cnt ⟨k, s, hlast'⟩

/-- Every emitted chunk respects the effective batch size: the loop flushes
as soon as the item count reaches it, so a pending chunk below the bound
can never grow past it. -/
theorem extractPayloadChunksGo_length_le (bs ibis : Int) :
    ∀ (entries : List (String × JVal)) (cur : List (String × String)) (cnt : Nat),
      cnt = cur.length → (cnt : Int) < (if bs = 0 then 25 else bs) →
      ∀ c ∈ extractPayloadChunksGo bs ibis cur cnt entries,
        (c.length : Int) ≤ (if bs = 0 then 25 else bs) := by
  intro entries
  induction entries with
  | nil => intro cur cnt _ _ c hc; simp [extractPayloadChunksGo] at hc
  | cons e rest ih =>
    intro cur cnt hcnt hlt c hc
    obtain ⟨ek, ev⟩ := e
    cases ev with
    | str s =>
      have hgen : ∀ (b : Prop) (inst : Decidable b),
          (¬ b → ((cnt + 1 : Nat) : Int) < (if bs = 0 then 25 else bs)) →
          c ∈ (@ite _ b inst
              ((cur ++ [(ek, s)]) :: extractPayloadChunksGo bs ibis [] 0 rest)
              (extractPayloadChunksGo bs ibis (cur ++ [(ek, s)]) (cnt + 1) rest)) →
          (c.length : Int) ≤ (if bs = 0 then 25 else bs) := by
        intro b inst hneg hc'
        by_cases hb : b
        · rw [if_pos hb] at hc'
          rcases List.mem_cons.mp hc' with rfl | hmem
          · have hlen : (cur ++ [(ek, s)]).length = cnt + 1 := by simp [hcnt]
            rw [hlen]; push_cast; omega
          · exact ih [] 0 rfl (by omega) c hmem
        · rw [if_neg hb] at hc'
          exact ih (cur ++ [(ek, s)]) (cnt + 1) (by simp [hcnt]) (hneg hb) c hc'
      simp only [extractPayloadChunksGo] at hc
      refine hgen _ _ (fun hnb => ?_) hc
      push_neg at hnb
      push_cast
      push_cast at hnb
      omega
    | num n => exact ih cur cnt hcnt hlt c (by simpa [extractPayloadChunksGo] using hc)
    | boolean b => exact ih cur cnt hcnt hlt c (by simpa [extractPayloadChunksGo] using hc)
    | null => exact ih cur cnt hcnt hlt c (by simpa [extractPayloadChunksGo] using hc)
    | arr items => exact ih cur cnt hcnt hlt c (by simpa [extractPayloadChunksGo] using hc)
    | obj fields => exact ih cur cnt hcnt hlt c (by simpa [extractPayloadChunksGo] using hc)

/-! ### Object.assign lemmas -/

theorem assignPair_fresh (acc : List (String × String)) (kv : String × String)
    (h : ∀ e ∈ acc, e.1 ≠ kv.1) : assignPair acc kv = acc ++ [kv] := by
  have hany : acc.any (fun e => e.1 = kv.1) = false := by
    rw [List.any_eq_false]
    intro e he
    simpa using h e he
  simp [assignPair, hany]

theorem assignInto_fresh :
    ∀ (chunk acc : List (String × String)),
      (∀ e ∈ acc, ∀ f ∈ chunk, e.1 ≠ f.1) → (chunk.map Prod.fst).Nodup →
      assignInto acc chunk = acc ++ chunk := by
  intro chunk
  induction chunk with
  | nil => intro acc _ _; simp [assignInto]
  | cons kv rest ih =>
    intro acc hdisj hnodup
    have h1 : assignPair acc kv = acc ++ [kv] :=
      assignPair_fresh acc kv (fun e he => hdisj e he kv (by simp))
    have hsplit : kv.1 ∉ rest.map Prod.fst ∧ (rest.map Prod.fst).Nodup := by
      have h' : ((kv :: rest).map Prod.fst).Nodup := hnodup
      rw [List.map_cons, List.nodup_cons] at h'
      exact h'
    have hdisj' : ∀ e ∈ acc ++ [kv], ∀ f ∈ rest, e.1 ≠ f.1 := by
      intro e he f hf
      rcases List.mem_append.mp he with he' | he'
      · exact hdisj e he' f (by simp [hf])
      · have heq : e = kv := by simpa using he'
        rw [heq]
        intro hEq
        exact hsplit.1 (hEq ▸ List.mem_map_of_mem Prod.fst hf)
    have hnodup' : (rest.map Prod.fst).Nodup := hsplit.2
    calc assignInto acc (kv :: rest)
        = assignInto (assignPair acc kv) rest := by simp [assignInto]
      _ = assignInto (acc ++ [kv]) rest := by rw [h1]
      _ = (acc ++ [kv]) ++ rest := ih (acc ++ [kv]) hdisj' hnodup'
      _ = acc ++ kv :: rest := by simp

theorem foldl_assignInto_of_nodup :
    ∀ (chunks : List (List (String × String))) (acc : List (String × String)),
      ((acc ++ chunks.flatten).map Prod.fst).Nodup →
      chunks.foldl assignInto acc = acc ++ chunks.flatten := by
  intro chunks
  induction chunks with
  | nil => intro acc _; simp
  | cons c rest ih =>
    intro acc h
    rw [List.flatten_cons, ← List.append_assoc] at h
    have hsplit := h
    rw [List.map_append, List.nodup_append] at hsplit
    obtain ⟨hac, _, _⟩ := hsplit
    rw [List.map_append, List.nodup_append] at hac
    obtain ⟨_, hcnd, hdisj⟩ := hac
    have hstep : assignInto acc c = acc ++ c := by
      refine assignInto_fresh c acc ?_ hcnd
      intro e he f hf hEq
      exact hdisj (List.mem_map_of_mem Prod.fst he)
        (hEq ▸ List.mem_map_of_mem Prod.fst hf)
    calc (c :: rest).foldl assignInto acc
        = rest.foldl assignInto (assignInto acc c) := by simp
      _ = rest.foldl assignInto (acc ++ c) := by rw [hstep]
      _ = (acc ++ c) ++ rest.flatten := ih (acc ++ c) (by simpa using h)
      _ = acc ++ (c :: rest).flatten := by simp

/-- `Object.assign({}, ...chunks)` is plain concatenation when no key
occurs twice across the chunks. -/
theorem mergeChunks_of_nodup (chunks : List (List (String × String)))
    (h : (chunks.flatten.map Prod.fst).Nodup) :
    mergeChunks chunks = chunks.flatten := by
  simpa [mergeChunks] using foldl_assignInto_of_nodup chunks [] (by simpa using h)

/-! ### Claims C1, C2, C8 -/

/-- Claim C1, counterexample: with default thresholds, the payload
`{a: "hello", b: 42}` — whose final entry is non-string — produces no
chunks at all, so the string-valued entry `a` is omitted: the loop's final
flush sits inside the `typeof value === "string"` branch and never fires
when the last entry is skipped. -/
theorem claim1_cex_trailing_nonstring_drops_entries :
    extractPayloadChunks 25 250 [("a", JVal.str "hello"), ("b", JVal.num 42)] = [] ∧
    stringEntries [("a", JVal.str "hello"), ("b", JVal.num 42)] = [("a", "hello")] ∧
    ("a", "hello") ∉
      (extractPayloadChunks 25 250 [("a", JVal.str "hello"), ("b", JVal.num 42)]).flatten :=
  ⟨by decide, by decide, by decide⟩

/-- Claim C1, amended: for `maxItems ≥ 1`, the Chunker's output chunks,
concatenated in order, are exactly the string-valued entries of the payload
in their original order (no duplication, no omission) and every chunk holds
at most `maxItems` entries — provided the payload is empty or its final
entry is string-valued (in particular, whenever every value is a string).
Without that proviso, string entries pending since the last flush are
silently dropped (see the counterexample). -/
theorem claim1_chunker_partition (maxItems idealWordBudget : Int)
    (payload : List (String × JVal)) (hbs : 1 ≤ maxItems)
    (hlast : payload = [] ∨ ∃ k s, payload.getLast? = some (k, JVal.str s)) :
    (extractPayloadChunks maxItems idealWordBudget payload).flatten =
      stringEntries payload ∧
    ∀ c ∈ extractPayloadChunks maxItems idealWordBudget payload,
      (c.length : Int) ≤ maxItems := by
  have heff : (if maxItems = (0 : Int) then (25 : Int) else maxItems) = maxItems :=
    if_neg (by omega)
  constructor
  · rcases hlast with rfl | ⟨k, s, h⟩
    · rfl
    · simpa using
        extractPayloadChunksGo_flatten maxItems idealWordBudget payload [] 0 ⟨k, s, h⟩
  · intro c hc
    have := extractPayloadChunksGo_length_le maxItems idealWordBudget payload [] 0
      rfl (by rw [heff]; omega) c hc
    rwa [heff] at this

/-- Claim C1, witness for the amended theorem: three one-word entries with
`maxItems = 2` split into two chunks that concatenate back to the input. -/
theorem claim1_witness :
    (extractPayloadChunks 2 250
        [("a", JVal.str "x"), ("b", JVal.str "y"), ("c", JVal.str "z")]).flatten =
      stringEntries [("a", JVal.str "x"), ("b", JVal.str "y"), ("c", JVal.str "z")] :=
  (claim1_chunker_partition 2 250
    [("a", JVal.str "x"), ("b", JVal.str "y"), ("c", JVal.str "z")]
    (by omega) (Or.inr ⟨"c", "z", rfl⟩)).1

/-- Claim C2, counterexample: for the input `{a: "x", b: 2}` and an echoing
remote, `localizeObject` returns the empty record: the string entry `a`
does not appear in the output at all (the trailing non-string entry
suppressed the chunker's final flush), and the non-string entry `b` is not
passed through either — the output is the merged reply, not the input with
substitutions. -/
theorem claim2_cex_nonstring_entry_dropped :
    localizeObject 25 250 (fun chunk => chunk)
        [("a", JVal.str "x"), ("b", JVal.num 2)] = [] ∧
    ¬ ∃ v, ("a", v) ∈
      localizeObject 25 250 (fun chunk => chunk)
        [("a", JVal.str "x"), ("b", JVal.num 2)] := by
  have h : localizeObject 25 250 (fun chunk => chunk)
      [("a", JVal.str "x"), ("b", JVal.num 2)] = [] := by decide
  refine ⟨h, ?_⟩
  rintro ⟨v, hv⟩
  rw [h] at hv
  exact List.not_mem_nil _ hv

/-- Claim C2, amended: when every top-level value of the input mapping is a
string and its keys are distinct, `localizeObject` under a key-preserving
remote returns exactly the input mapping with every value translated, keys
in their original order.  Entries with non-string values are not passed
through (and can even suppress trailing string entries — see the
counterexample), so the output is the merged reply rather than the input
with substitutions. -/
theorem stringEntries_map_str (l : List (String × String)) :
    stringEntries (l.map fun kv => (kv.1, JVal.str kv.2)) = l := by
  induction l with
  | nil => rfl
  | cons a rest ih =>
    calc stringEntries ((a :: rest).map fun kv => (kv.1, JVal.str kv.2))
        = (a.1, a.2) :: stringEntries (rest.map fun kv => (kv.1, JVal.str kv.2)) :=
          rfl
      _ = a :: rest := by rw [ih]

/-- All-string payloads always end in a string entry (or are empty), so the
Chunker loses nothing: the chunks flatten back to the payload itself. -/
theorem extractPayloadChunks_flatten_all_str (batchSize idealBatchItemSize : Int)
    (obj : List (String × String)) :
    (extractPayloadChunks batchSize idealBatchItemSize
        (obj.map fun kv => (kv.1, JVal.str kv.2))).flatten = obj := by
  cases hobj : obj with
  | nil => rfl
  | cons a rest =>
    have hne : obj ≠ [] := by simp [hobj]
    obtain ⟨last, hlastEq⟩ :=
      Option.isSome_iff_exists.mp (List.getLast?_isSome.mpr hne)
    have hlast : (obj.map fun kv => (kv.1, JVal.str kv.2)).getLast? =
        some (last.1, JVal.str last.2) := by
      rw [List.getLast?_map, hlastEq]; rfl
    rw [hobj] at hlast
    calc (extractPayloadChunks batchSize idealBatchItemSize
            ((a :: rest).map fun kv => (kv.1, JVal.str kv.2))).flatten
        = [] ++ stringEntries ((a :: rest).map fun kv => (kv.1, JVal.str kv.2)) :=
          extractPayloadChunksGo_flatten batchSize idealBatchItemSize _ [] 0
            ⟨last.1, last.2, hlast⟩
      _ = a :: rest := by rw [List.nil_append, stringEntries_map_str]

theorem claim2_localizeObject_translates_string_entries
    (batchSize idealBatchItemSize : Int) (tr : String → String → String)
    (obj : List (String × String)) (hnd : (obj.map Prod.fst).Nodup) :
    localizeObject batchSize idealBatchItemSize (respondWith tr)
        (obj.map fun kv => (kv.1, JVal.str kv.2)) =
      obj.map fun kv => (kv.1, tr kv.1 kv.2) := by
  have hflat := extractPayloadChunks_flatten_all_str batchSize idealBatchItemSize obj
  have hmapflat :
      ((extractPayloadChunks batchSize idealBatchItemSize
          (obj.map fun kv => (kv.1, JVal.str kv.2))).map (respondWith tr)).flatten =
        obj.map fun kv => (kv.1, tr kv.1 kv.2) := by
    have hresp : respondWith tr =
        List.map (fun kv : String × String => (kv.1, tr kv.1 kv.2)) := rfl
    rw [hresp, ← List.map_flatten, hflat]
  have hkeys :
      (((extractPayloadChunks batchSize idealBatchItemSize
          (obj.map fun kv => (kv.1, JVal.str kv.2))).map
            (respondWith tr)).flatten.map Prod.fst).Nodup := by
    rw [hmapflat, List.map_map]
    have hfun : (Prod.fst ∘ fun kv : String × String => (kv.1, tr kv.1 kv.2)) =
        Prod.fst := by
      funext kv; rfl
    rw [hfun]
    exact hnd
  calc localizeObject batchSize idealBatchItemSize (respondWith tr)
          (obj.map fun kv => (kv.1, JVal.str kv.2))
      = mergeChunks ((extractPayloadChunks batchSize idealBatchItemSize
            (obj.map fun kv => (kv.1, JVal.str kv.2))).map (respondWith tr)) := rfl
    _ = ((extractPayloadChunks batchSize idealBatchItemSize
            (obj.map fun kv => (kv.1, JVal.str kv.2))).map (respondWith tr)).flatten :=
          mergeChunks_of_nodup _ hkeys
    _ = obj.map fun kv => (kv.1, tr kv.1 kv.2) := hmapflat

/-- Claim C2, witness for the amended theorem at a concrete mapping and
translation. -/
theorem claim2_witness :
    localizeObject 25 250 (respondWith fun _ v => v ++ "!")
        [("a", JVal.str "hello world"), ("b", JVal.str "x")] =
      [("a", "hello world!"), ("b", "x!")] :=
  claim2_localizeObject_translates_string_entries 25 250 (fun _ v => v ++ "!")
    [("a", "hello world"), ("b", "x")] (by decide)

/-- Claim C8: `localizeStringArray` on the empty array returns the empty
array, and the Chunker applied to the empty synthesized record yields no
chunks — `_localizeRaw` performs one remote call per chunk, so zero chunks
means zero network round-trips. -/
theorem claim8_empty_array_no_requests (batchSize idealBatchItemSize : Int)
    (respond : List (String × String) → List (String × String)) :
    localizeStringArray batchSize idealBatchItemSize respond [] = [] ∧
    extractPayloadChunks batchSize idealBatchItemSize (stringArrayRecord []) = [] :=
  ⟨rfl, rfl⟩

/-! ### Digit rendering and parseInt round-trip -/

theorem natDigitsAux_congr :
    ∀ (n fuel fuel' : Nat), n < fuel → n < fuel' →
      natDigitsAux fuel n = natDigitsAux fuel' n := by
  intro n
  induction n using Nat.strong_induction_on with
  | _ n ih =>
    intro fuel fuel' hf hf'
    cases fuel with
    | zero => omega
    | succ f =>
      cases fuel' with
      | zero => omega
      | succ f' =>
        simp only [natDigitsAux]
        by_cases h10 : n < 10
        · simp [h10]
        · simp only [h10, if_false]
          rw [ih (n / 10) (by omega) f f' (by omega) (by omega)]

theorem natDigits_eq (n : Nat) :
    natDigits n = if n < 10 then [digitChar n]
      else natDigits (n / 10) ++ [digitChar (n % 10)] := by
  by_cases h10 : n < 10
  · rw [if_pos h10]
    unfold natDigits
    simp [natDigitsAux, h10]
  · rw [if_neg h10]
    have h1 : natDigits n = natDigitsAux n (n / 10) ++ [digitChar (n % 10)] := by
      unfold natDigits
      simp [natDigitsAux, h10]
    rw [h1, natDigitsAux_congr (n / 10) n (n / 10 + 1) (by omega) (by omega)]
    rfl

theorem digitChar_isDigit {d : Nat} (h : d < 10) : (digitChar d).isDigit = true := by
  interval_cases d <;> decide

theorem digitVal_digitChar {d : Nat} (h : d < 10) : digitVal (digitChar d) = d := by
  interval_cases d <;> decide

theorem digitChar_ne_zero {d : Nat} (h1 : 1 ≤ d) (h2 : d < 10) :
    digitChar d ≠ '0' := by
  interval_cases d <;> decide

theorem natDigits_ne_nil (n : Nat) : natDigits n ≠ [] := by
  rw [natDigits_eq]
  by_cases h : n < 10 <;> simp [h]

theorem natDigits_all_digits :
    ∀ n, ∀ c ∈ natDigits n, c.isDigit = true := by
  intro n
  induction n using Nat.strong_induction_on with
  | _ n ih =>
    intro c hc
    rw [natDigits_eq] at hc
    by_cases h10 : n < 10
    · rw [if_pos h10] at hc
      simp at hc
      rw [hc]
      exact digitChar_isDigit h10
    · rw [if_neg h10] at hc
      rcases List.mem_append.mp hc with hc' | hc'
      · exact ih (n / 10) (by omega) c hc'
      · simp at hc'
        rw [hc']
        exact digitChar_isDigit (by omega)

theorem natDigits_head_ne_zero :
    ∀ n, 1 ≤ n → ∀ c, (natDigits n).head? = some c → c ≠ '0' := by
  intro n
  induction n using Nat.strong_induction_on with
  | _ n ih =>
    intro h1 c hc
    rw [natDigits_eq] at hc
    by_cases h10 : n < 10
    · rw [if_pos h10] at hc
      simp at hc
      rw [← hc]
      exact digitChar_ne_zero h1 h10
    · rw [if_neg h10] at hc
      cases hh : (natDigits (n / 10)).head? with
      | none =>
        exact absurd (List.head?_eq_none_iff.mp hh) (natDigits_ne_nil (n / 10))
      | some c' =>
        have : ((natDigits (n / 10)) ++ [digitChar (n % 10)]).head? = some c' := by
          cases hd : natDigits (n / 10) with
          | nil => exact absurd hd (natDigits_ne_nil (n / 10))
          | cons a as =>
            rw [hd] at hh
            simpa using hh
        rw [this] at hc
        have hcc : c = c' := by injection hc with h'; exact h'.symm
        rw [hcc]
        exact ih (n / 10) (by omega) (by omega) c' hh

theorem decVal_natDigits :
    ∀ n, (natDigits n).foldl (fun a c => 10 * a + digitVal c) 0 = n := by
  intro n
  induction n using Nat.strong_induction_on with
  | _ n ih =>
    rw [natDigits_eq]
    by_cases h10 : n < 10
    · simp [h10, digitVal_digitChar h10]
    · rw [if_neg h10, List.foldl_append, ih (n / 10) (by omega)]
      simp [digitVal_digitChar (show n % 10 < 10 by omega)]
      omega

theorem takeWhile_eq_self_of_all {p : Char → Bool} :
    ∀ cs : List Char, (∀ c ∈ cs, p c = true) → cs.takeWhile p = cs := by
  intro cs
  induction cs with
  | nil => intro _; rfl
  | cons c rest ih =>
    intro h
    simp [List.takeWhile_cons, h c (List.mem_cons_self c rest),
      ih (fun x hx => h x (List.mem_cons_of_mem c hx))]

theorem parseDecDigits_natDigits (n : Nat) :
    parseDecDigits (natDigits n) = some n := by
  unfold parseDecDigits
  rw [takeWhile_eq_self_of_all (natDigits n) (natDigits_all_digits n)]
  cases hd : natDigits n with
  | nil => exact absurd hd (natDigits_ne_nil n)
  | cons c cs =>
    have : (c :: cs).foldl (fun a c => 10 * a + digitVal c) 0 = n := by
      rw [← hd]
      exact decVal_natDigits n
    simp [this]

theorem parseIntBody_natDigits (n : Nat) :
    parseIntBody (natDigits n) = some n := by
  unfold parseIntBody
  split
  · next x rest heq =>
    exfalso
    by_cases hn : n = 0
    · rw [hn] at heq
      rw [natDigits_eq] at heq
      simp at heq
    · have hhead : (natDigits n).head? = some '0' := by rw [heq]; rfl
      exact natDigits_head_ne_zero n (by omega) '0' hhead rfl
  · exact parseDecDigits_natDigits n

theorem not_isWs_of_isDigit {c : Char} (h : c.isDigit = true) :
    isWs c = false := by
  by_cases h1 : c = ' '
  · rw [h1] at h; exact absurd h (by decide)
  by_cases h2 : c = '\t'
  · rw [h2] at h; exact absurd h (by decide)
  by_cases h3 : c = '\r'
  · rw [h3] at h; exact absurd h (by decide)
  by_cases h4 : c = '\n'
  · rw [h4] at h; exact absurd h (by decide)
  simp [isWs, Char.isWhitespace, h1, h2, h3, h4]

theorem ne_of_isDigit_of_not {c x : Char} (h : c.isDigit = true)
    (hx : ¬ x.isDigit = true) : c ≠ x := fun he => hx (he ▸ h)

theorem jsParseInt_natToStr (n : Nat) : jsParseInt (natToStr n) = some (n : Int) := by
  unfold jsParseInt natToStr
  have hdata : (String.mk (natDigits n)).data = natDigits n := rfl
  rw [hdata]
  have hdrop : (natDigits n).dropWhile isWs = natDigits n := by
    cases hd : natDigits n with
    | nil => rfl
    | cons c cs =>
      have hc : isWs c = false :=
        not_isWs_of_isDigit (natDigits_all_digits n c (by rw [hd]; simp))
      simp [List.dropWhile_cons, hc]
  rw [hdrop]
  split
  · next rest heq =>
    have hmem : ('-' : Char) ∈ natDigits n := by rw [heq]; simp
    exact absurd (natDigits_all_digits n '-' hmem) (by decide)
  · next rest heq =>
    have hmem : ('+' : Char) ∈ natDigits n := by rw [heq]; simp
    exact absurd (natDigits_all_digits n '+' hmem) (by decide)
  · rw [parseIntBody_natDigits]
    rfl

/-! ### jsSplit lemmas -/

theorem splitListOnP_of_no_sep {p : Char → Bool} :
    ∀ cs : List Char, (∀ c ∈ cs, p c = false) → splitListOnP p cs = [cs] := by
  intro cs
  induction cs with
  | nil => intro _; rfl
  | cons c rest ih =>
    intro h
    have hc : p c = false := h c (List.mem_cons_self c rest)
    simp [splitListOnP, hc, ih (fun x hx => h x (List.mem_cons_of_mem c hx))]

theorem splitListOnP_append_sep {p : Char → Bool} {sep : Char} (hsep : p sep = true) :
    ∀ (xs ys : List Char), (∀ c ∈ xs, p c = false) →
      splitListOnP p (xs ++ sep :: ys) = xs :: splitListOnP p ys := by
  intro xs
  induction xs with
  | nil => intro ys _; simp [splitListOnP, hsep]
  | cons c rest ih =>
    intro ys h
    have hc : p c = false := h c (List.mem_cons_self c rest)
    have hr := ih ys (fun x hx => h x (List.mem_cons_of_mem c hx))
    simp [splitListOnP, hc, hr]

theorem jsSplit_underscore_chatKey (i : Nat) :
    jsSplit '_' (chatKey i) = ["chat", natToStr i] := by
  unfold jsSplit chatKey
  have hdata : ("chat_" ++ natToStr i).data = ['c', 'h', 'a', 't'] ++ '_' :: natDigits i :=
    rfl
  rw [hdata]
  have hxs : ∀ c ∈ (['c', 'h', 'a', 't'] : List Char),
      (fun c => (decide (c = '_') : Bool)) c = false := by decide
  have hdig : ∀ c ∈ natDigits i, (fun c => (decide (c = '_') : Bool)) c = false := by
    intro c hc
    have : c ≠ '_' := ne_of_isDigit_of_not (natDigits_all_digits i c hc) (by decide)
    simp [this]
  rw [splitListOnP_append_sep (by decide) ['c', 'h', 'a', 't'] (natDigits i) hxs,
    splitListOnP_of_no_sep (natDigits i) hdig]
  rfl

theorem chatKeyIndex_chatKey (i : Nat) : chatKeyIndex (chatKey i) = some (i : Int) := by
  unfold chatKeyIndex
  rw [jsSplit_underscore_chatKey]
  exact jsParseInt_natToStr i

/-! ### Claims C3 and C10 -/

theorem isSome_optionMap {α β : Type} (f : α → β) (o : Option α) :
    (o.map f).isSome = o.isSome := by cases o <;> rfl

theorem mapOrThrow_eq_map_of_some {α β : Type} (g : α → Option β) (h : α → β) :
    ∀ l : List α, (∀ a ∈ l, g a = some (h a)) → mapOrThrow g l = some (l.map h) := by
  intro l
  induction l with
  | nil => intro _; rfl
  | cons a rest ih =>
    intro H
    simp [mapOrThrow, H a (List.mem_cons_self a rest),
      ih (fun x hx => H x (List.mem_cons_of_mem a hx))]

theorem mapOrThrow_isSome_iff {α β : Type} (g : α → Option β) :
    ∀ l : List α, (mapOrThrow g l).isSome = true ↔ ∀ a ∈ l, (g a).isSome = true := by
  intro l
  induction l with
  | nil => simp [mapOrThrow]
  | cons a rest ih =>
    constructor
    · intro hs
      cases hga : g a with
      | none =>
        rw [show mapOrThrow g (a :: rest) = none from by simp [mapOrThrow, hga]] at hs
        simp at hs
      | some b =>
        cases hrest : mapOrThrow g rest with
        | none =>
          rw [show mapOrThrow g (a :: rest) = none from by
            simp [mapOrThrow, hga, hrest]] at hs
          simp at hs
        | some bs =>
          intro x hx
          rcases List.mem_cons.mp hx with rfl | hx'
          · simp [hga]
          · exact (ih.mp (by simp [hrest])) x hx'
    · intro hall
      obtain ⟨b, hga⟩ :=
        Option.isSome_iff_exists.mp (hall a (List.mem_cons_self a rest))
      obtain ⟨bs, hrest⟩ := Option.isSome_iff_exists.mp
        (ih.mpr (fun x hx => hall x (List.mem_cons_of_mem a hx)))
      simp [mapOrThrow, hga, hrest]

theorem jsIndex_isSome_iff {α : Type} (l : List α) (idx : Option Int) :
    (jsIndex l idx).isSome = true ↔
      ∃ i : Int, idx = some i ∧ 0 ≤ i ∧ i.toNat < l.length := by
  cases idx with
  | none => simp [jsIndex]
  | some i =>
    by_cases hi : i < 0
    · simp only [jsIndex, if_pos hi, Option.isSome_none, Bool.false_eq_true,
        false_iff]
      rintro ⟨j, hj, hj0, _⟩
      injection hj with hj'
      omega
    · simp only [jsIndex, if_neg hi]
      constructor
      · intro hs
        obtain ⟨m, hm⟩ := Option.isSome_iff_exists.mp hs
        rcases List.get?_eq_some.mp hm with ⟨hlt, _⟩
        exact ⟨i, rfl, by omega, hlt⟩
      · rintro ⟨j, hj, hj0, hjl⟩
        have hj' : i = j := by injection hj
        subst hj'
        exact Option.isSome_iff_exists.mpr
          ⟨l.get ⟨i.toNat, hjl⟩, List.get?_eq_get hjl⟩

/-- Claim C10: `localizeChat`'s reassembly indexes the input chat with the
integer parsed (by `parseInt`, after the first underscore) from each merged
reply key, without any bounds or shape check: it returns a result exactly
when every reply key parses to an in-range index, and any reply containing
a key whose parsed index is `NaN`, negative, or at least the chat length
throws a `TypeError` (modelled by `none`) instead of returning. -/
theorem claim10_localizeChat_response_key_safety (chat : List ChatMsg)
    (localized : List (String × String)) :
    (localizeChatAssemble chat localized).isSome = true ↔
      ∀ kv ∈ localized, ∃ i : Int,
        chatKeyIndex kv.1 = some i ∧ 0 ≤ i ∧ i.toNat < chat.length := by
  unfold localizeChatAssemble
  rw [mapOrThrow_isSome_iff (localizeChatStep chat) localized]
  have hstep : ∀ kv : String × String,
      (localizeChatStep chat kv).isSome = (jsIndex chat (chatKeyIndex kv.1)).isSome :=
    fun kv => isSome_optionMap _ _
  constructor
  · intro H kv hkv
    have h' := H kv hkv
    rw [hstep kv] at h'
    exact (jsIndex_isSome_iff chat (chatKeyIndex kv.1)).mp h'
  · intro H kv hkv
    rw [hstep kv]
    exact (jsIndex_isSome_iff chat (chatKeyIndex kv.1)).mpr (H kv hkv)

theorem range_length_map_eq_mapIdx {α β : Type} (d : α) :
    ∀ (l : List α) (F : Nat → α → β),
      (List.range l.length).map (fun i => F i ((l.get? i).getD d)) = l.mapIdx F := by
  intro l
  induction l with
  | nil => intro F; rfl
  | cons a rest ih =>
    intro F
    rw [List.length_cons, List.range_succ_eq_map, List.map_cons, List.map_map,
      List.mapIdx_cons]
    have hhead : F 0 (((a :: rest).get? 0).getD d) = F 0 a := rfl
    have hfun : ((fun i => F i (((a :: rest).get? i).getD d)) ∘ Nat.succ) =
        (fun j => F (j + 1) ((rest.get? j).getD d)) := by
      funext j; rfl
    rw [hhead, hfun, ih (fun i => F (i + 1))]

/-- Claim C3: for a merged reply carrying exactly the synthesized keys
`chat_0 .. chat_{n-1}` (in their synthesized order) with arbitrary
translated strings `f 0 .. f (n-1)`, the reassembly of `localizeChat`
returns a chat of the same length in which the element at index `i` keeps
the input's `name` at index `i` unchanged and carries `f i` as its only
replaced field. -/
theorem claim3_localizeChat_preserves_names (chat : List ChatMsg) (f : Nat → String) :
    localizeChatAssemble chat
        ((List.range chat.length).map fun i => (chatKey i, f i)) =
      some (chat.mapIdx fun i m => ChatMsg.mk m.name (f i)) := by
  unfold localizeChatAssemble
  have hstep : ∀ kv ∈ (List.range chat.length).map fun i => (chatKey i, f i),
      localizeChatStep chat kv =
        some (ChatMsg.mk
          (((jsIndex chat (chatKeyIndex kv.1)).getD ⟨"", ""⟩).name) kv.2) := by
    intro kv hkv
    rcases List.mem_map.mp hkv with ⟨i, hi, rfl⟩
    have hilen : i < chat.length := List.mem_range.mp hi
    obtain ⟨m, hm⟩ : ∃ m, chat.get? i = some m := by
      cases hg : chat.get? i with
      | none => exact absurd (List.get?_eq_none.mp hg) (by omega)
      | some m => exact ⟨m, rfl⟩
    have hji : jsIndex chat (some (i : Int)) = some m := by
      show (if (i : Int) < 0 then none else chat.get? ((i : Int)).toNat) = some m
      rw [if_neg (by omega : ¬ (i : Int) < 0), Int.toNat_natCast]
      exact hm
    have hkey : chatKeyIndex (chatKey i, f i).1 = some (i : Int) :=
      chatKeyIndex_chatKey i
    calc localizeChatStep chat (chatKey i, f i)
        = (jsIndex chat (chatKeyIndex (chatKey i, f i).1)).map
            (fun m => ⟨m.name, (chatKey i, f i).2⟩) := rfl
      _ = (some m).map (fun m => ⟨m.name, (chatKey i, f i).2⟩) := by
            rw [hkey, hji]
      _ = some (ChatMsg.mk
            (((jsIndex chat (chatKeyIndex (chatKey i, f i).1)).getD
              ⟨"", ""⟩).name) (chatKey i, f i).2) := by
            rw [hkey, hji]
            rfl
  rw [mapOrThrow_eq_map_of_some (localizeChatStep chat) _ _ hstep]
  congr 1
  rw [List.map_map]
  have hfun : ((fun kv : String × String =>
      ChatMsg.mk (((jsIndex chat (chatKeyIndex kv.1)).getD ⟨"", ""⟩).name) kv.2) ∘
        fun i => (chatKey i, f i)) =
      fun i => ChatMsg.mk (((chat.get? i).getD ⟨"", ""⟩).name) (f i) := by
    funext i
    simp only [Function.comp_apply]
    have hji2 : jsIndex chat (some (i : Int)) = chat.get? i := by
      show (if (i : Int) < 0 then none else chat.get? ((i : Int)).toNat) =
        chat.get? i
      rw [if_neg (by omega : ¬ (i : Int) < 0), Int.toNat_natCast]
    rw [show chatKeyIndex (chatKey i, f i).1 = some (i : Int) from
      chatKeyIndex_chatKey i, hji2]
  rw [hfun]
  exact range_length_map_eq_mapIdx ⟨"", ""⟩ chat
    (fun i m => ChatMsg.mk m.name (f i))

/-! ### Claim C4: HTML extraction and injection -/

/-- Claim C4, counterexample: a document whose body is
`hi <script>var x = 1</script> <p>yo</p>`, with a key-preserving remote
reply translating the extracted `"hi"` (key `body/0`) to the empty string
and `"yo"` (key `body/2/0`) to `"OWNED"`.  Writing the blank translation
makes the first text node insignificant, so the replayed descent for
`body/2/0` desynchronizes: its first step finds no significant sibling at
index 2 (`current` becomes `null` while `parent` stays `body`), its second
step then selects significant sibling 0 — the `<script>` element — and the
final write stores the translated value as the script's text content.  The
script block is altered, translated content is emitted into it, and the
`<p>` text is never replaced, refuting the claim as stated. -/
theorem claim4_cex_blank_translation_corrupts_script :
    (localizeHtml 25 250
        (fun chunk => chunk.map
          (fun kv => (kv.1, if kv.1 = "body/0" then "" else "OWNED")))
        { htmlAttrs := []
          head := .element "head" [] []
          body := .element "body" []
            [.text "hi", .element "script" [] [.text "var x = 1"],
             .element "p" [] [.text "yo"]] } "es").body =
      HNode.element "body" []
        [HNode.text "", HNode.element "script" [] [HNode.text "OWNED"],
         HNode.element "p" [] [HNode.text "yo"]] := rfl

theorem extractChildren_blocked :
    ∀ (cs : List HNode) (path : String) (i : Nat),
      extractChildren true path i cs = [] := by
  intro cs
  induction cs with
  | nil => intro path i; rfl
  | cons c rest ih =>
    intro path i
    cases c with
    | text s => by_cases hs : significant (.text s) <;> simp [extractChildren, hs, ih, extractNode]
    | element tag attrs children =>
      simp [extractChildren, significant, extractNode, ih]

/-- Extraction never reads inside unlocalizable (`script`/`style`)
subtrees: deleting their contents does not change the extracted record. -/
theorem extract_eq_extract_strip :
    (∀ n : HNode, ∀ (blocked : Bool) (path : String),
      extractNode blocked path (stripUnlocalizable n) = extractNode blocked path n) ∧
    (∀ cs : List HNode, ∀ (blocked : Bool) (path : String) (i : Nat),
      extractChildren blocked path i (stripUnlocalizableList cs) =
        extractChildren blocked path i cs) := by
  suffices H : ∀ k : Nat,
      (∀ n : HNode, sizeOf n ≤ k → ∀ (blocked : Bool) (path : String),
        extractNode blocked path (stripUnlocalizable n) =
          extractNode blocked path n) ∧
      (∀ cs : List HNode, sizeOf cs ≤ k → ∀ (blocked : Bool) (path : String) (i : Nat),
        extractChildren blocked path i (stripUnlocalizableList cs) =
          extractChildren blocked path i cs) by
    exact ⟨fun n => (H (sizeOf n)).1 n le_rfl,
      fun cs => (H (sizeOf cs)).2 cs le_rfl⟩
  intro k
  induction k with
  | zero =>
    refine ⟨fun n hn => ?_, fun cs hcs => ?_⟩
    · cases n <;> simp at hn
    · cases cs <;> simp at hcs
  | succ k ih =>
    obtain ⟨ihN, ihL⟩ := ih
    refine ⟨fun n hn blocked path => ?_, fun cs hcs blocked path i => ?_⟩
    · cases n with
      | text s => rfl
      | element tag attrs children =>
        have hsz : sizeOf children ≤ k := by simp at hn; omega
        by_cases hu : isUnlocalizableTag tag
        · by_cases hb : blocked
          · simp [stripUnlocalizable, extractNode, hb, hu]
          · simp [stripUnlocalizable, extractNode, hb, hu, extractChildren_blocked]
        · by_cases hb : blocked
          · simp [stripUnlocalizable, extractNode, hb, hu]
          · simp [stripUnlocalizable, extractNode, hb, hu, ihL children hsz]
    · cases cs with
      | nil => rfl
      | cons c rest =>
        have h1 : sizeOf c ≤ k := by simp at hcs; omega
        have h2 : sizeOf rest ≤ k := by simp at hcs; omega
        have hsig : significant (stripUnlocalizable c) = significant c := by
          cases c with
          | text s => rfl
          | element tag attrs children =>
            by_cases hu : isUnlocalizableTag tag <;>
              simp [stripUnlocalizable, significant, hu]
        simp only [stripUnlocalizableList]
        by_cases hs : significant c
        · simp [extractChildren, hsig, hs, ihN c h1, ihL rest h2]
        · simp [extractChildren, hsig, hs, ihL rest h2]

/-- The injection loop never touches the root element's attributes. -/
theorem foldl_injectEntry_htmlAttrs (entries : List (String × String)) :
    ∀ d : HtmlDoc,
      (entries.foldl (fun d kv => injectEntry d kv.1 kv.2) d).htmlAttrs =
        d.htmlAttrs := by
  induction entries with
  | nil => intro d; rfl
  | cons kv rest ih =>
    intro d
    rw [List.foldl_cons, ih]
    unfold injectEntry
    dsimp only
    split <;> rfl

theorem find?_map_setName (name value : String) :
    ∀ attrs : List (String × String), attrs.any (fun kv => kv.1 = name) = true →
      (attrs.map (fun kv => if kv.1 = name then (kv.1, value) else kv)).find?
        (fun kv => kv.1 = name) = some (name, value) := by
  intro attrs
  induction attrs with
  | nil => intro h; simp at h
  | cons a rest ih =>
    intro h
    by_cases ha : a.1 = name
    · simp [List.find?_cons, ha]
    · have h' : rest.any (fun kv => kv.1 = name) = true := by
        rcases List.any_eq_true.mp h with ⟨kv, hkv, hp⟩
        rcases List.mem_cons.mp hkv with rfl | hmem
        · exact absurd (by simpa using hp) ha
        · exact List.any_eq_true.mpr ⟨kv, hmem, hp⟩
      simpa [List.find?_cons, ha] using ih h'

theorem find?_append_none_left (name : String) :
    ∀ attrs : List (String × String),
      (∀ kv ∈ attrs, ¬ kv.1 = name) →
      ∀ tail : List (String × String),
        ((attrs ++ tail).find? (fun kv => kv.1 = name)) =
          tail.find? (fun kv => kv.1 = name) := by
  intro attrs
  induction attrs with
  | nil => intro _ tail; rfl
  | cons a rest ih =>
    intro h tail
    have ha : ¬ a.1 = name := h a (List.mem_cons_self a rest)
    rw [List.cons_append, List.find?_cons_of_neg _ (by simpa using ha)]
    exact ih (fun x hx => h x (List.mem_cons_of_mem a hx)) tail

theorem getAttribute_setAttribute (attrs : List (String × String))
    (name value : String) :
    getAttribute (setAttribute attrs name value) name = some value := by
  unfold setAttribute getAttribute
  by_cases h : attrs.any (fun kv => kv.1 = name) = true
  · rw [if_pos h, find?_map_setName name value attrs h]
    rfl
  · have hnone : ∀ kv ∈ attrs, ¬ kv.1 = name := by
      intro kv hkv hEq
      exact h (List.any_eq_true.mpr ⟨kv, hkv, by simpa using hEq⟩)
    rw [if_neg h, find?_append_none_left name attrs hnone [(name, value)]]
    simp [List.find?_cons]

/-! ### Path codec lemmas -/

theorem str_append_empty (s : String) : s ++ "" = s := by
  apply String.ext
  show s.data ++ [] = s.data
  simp

theorem idxSuffix_chars :
    ∀ idxs : List Nat, ∀ c ∈ (idxSuffix idxs).data, c = '/' ∨ c.isDigit = true := by
  intro idxs
  induction idxs with
  | nil => intro c hc; simp [idxSuffix] at hc
  | cons i rest ih =>
    intro c hc
    have hdata : (idxSuffix (i :: rest)).data =
        '/' :: ((natToStr i).data ++ (idxSuffix rest).data) := rfl
    rw [hdata] at hc
    rcases List.mem_cons.mp hc with rfl | hc'
    · exact Or.inl rfl
    · rcases List.mem_append.mp hc' with h1 | h2
      · exact Or.inr (natDigits_all_digits i c h1)
      · exact ih c h2

theorem jsSplit_no_sep (sep : Char) (s : String) (h : ∀ c ∈ s.data, ¬ c = sep) :
    jsSplit sep s = [s] := by
  unfold jsSplit
  rw [splitListOnP_of_no_sep s.data (fun c hc => by simpa using h c hc)]
  rfl

theorem jsSplit_append (sep : Char) (s a b : String)
    (hs : s.data = a.data ++ sep :: b.data) (ha : ∀ c ∈ a.data, ¬ c = sep) :
    jsSplit sep s = a :: jsSplit sep b := by
  unfold jsSplit
  rw [hs, splitListOnP_append_sep (by simp) a.data b.data
    (fun c hc => by simpa using ha c hc)]
  rfl

theorem jsSplit_hash_encodeKey_none (path : String) (idxs : List Nat)
    (hpath : ∀ c ∈ path.data, ¬ c = '#') :
    jsSplit '#' (encodeKey path idxs none) = [path ++ idxSuffix idxs] := by
  apply jsSplit_no_sep
  intro c hc
  have hc' : c ∈ path.data ++ (idxSuffix idxs).data := hc
  rcases List.mem_append.mp hc' with h1 | h2
  · exact hpath c h1
  · rcases idxSuffix_chars idxs c h2 with rfl | hd
    · decide
    · exact ne_of_isDigit_of_not hd (by decide)

theorem jsSplit_hash_encodeKey_some (path : String) (idxs : List Nat) (a : String)
    (hpath : ∀ c ∈ path.data, ¬ c = '#') (hattr : ∀ c ∈ a.data, ¬ c = '#') :
    jsSplit '#' (encodeKey path idxs (some a)) = [path ++ idxSuffix idxs, a] := by
  rw [jsSplit_append '#' (encodeKey path idxs (some a)) (path ++ idxSuffix idxs) a
      ?hdata ?hpre]
  · rw [jsSplit_no_sep '#' a hattr]
  case hdata =>
    show (path.data ++ (idxSuffix idxs).data ++ ['#']) ++ a.data =
      (path.data ++ (idxSuffix idxs).data) ++ '#' :: a.data
    simp
  case hpre =>
    intro c hc
    have hc' : c ∈ path.data ++ (idxSuffix idxs).data := hc
    rcases List.mem_append.mp hc' with h1 | h2
    · exact hpath c h1
    · rcases idxSuffix_chars idxs c h2 with rfl | hd
      · decide
      · exact ne_of_isDigit_of_not hd (by decide)

theorem jsSplit_slash_idxSuffix :
    ∀ (idxs : List Nat) (pre : String), (∀ c ∈ pre.data, ¬ c = '/') →
      jsSplit '/' (pre ++ idxSuffix idxs) = pre :: idxs.map natToStr := by
  intro idxs
  induction idxs with
  | nil =>
    intro pre h
    rw [show idxSuffix [] = "" from rfl, str_append_empty]
    rw [jsSplit_no_sep '/' pre h]
    rfl
  | cons i rest ih =>
    intro pre h
    rw [jsSplit_append '/' (pre ++ idxSuffix (i :: rest)) pre
        (natToStr i ++ idxSuffix rest) ?hdata h]
    · rw [ih (natToStr i) (fun c hc =>
        ne_of_isDigit_of_not (natDigits_all_digits i c hc) (by decide))]
      rfl
    case hdata =>
      show pre.data ++ ('/' :: (natToStr i).data ++ (idxSuffix rest).data) =
        pre.data ++ '/' :: ((natToStr i).data ++ (idxSuffix rest).data)
      simp

theorem natToStr_inj {a b : Nat} (h : natToStr a = natToStr b) : a = b := by
  have ha := jsParseInt_natToStr a
  rw [h, jsParseInt_natToStr b] at ha
  injection ha with ha'
  exact_mod_cast ha'.symm

theorem table_attr_no_hash (tag a : String) (h : a ∈ LOCALIZABLE_ATTRIBUTES tag) :
    ∀ c ∈ a.data, ¬ c = '#' := by
  unfold LOCALIZABLE_ATTRIBUTES at h
  by_cases h1 : tag = "meta"
  · simp [h1] at h; subst h; decide
  by_cases h2 : tag = "img"
  · simp [h1, h2] at h; subst h; decide
  by_cases h3 : tag = "input"
  · simp [h1, h2, h3] at h; subst h; decide
  by_cases h4 : tag = "a"
  · simp [h1, h2, h3, h4] at h; subst h; decide
  simp [h1, h2, h3, h4] at h

theorem encodeKey_inj (path : String)
    (hpathH : ∀ c ∈ path.data, ¬ c = '#') (hpathS : ∀ c ∈ path.data, ¬ c = '/')
    {idxs1 idxs2 : List Nat} {a1 a2 : Option String}
    (ha1 : ∀ s, a1 = some s → ∀ c ∈ s.data, ¬ c = '#')
    (ha2 : ∀ s, a2 = some s → ∀ c ∈ s.data, ¬ c = '#')
    (h : encodeKey path idxs1 a1 = encodeKey path idxs2 a2) :
    idxs1 = idxs2 ∧ a1 = a2 := by
  have hbase : ∀ {l1 l2 : List Nat},
      path ++ idxSuffix l1 = path ++ idxSuffix l2 → l1 = l2 := by
    intro l1 l2 hEq
    have h1 := jsSplit_slash_idxSuffix l1 path hpathS
    rw [hEq, jsSplit_slash_idxSuffix l2 path hpathS] at h1
    have h2 : l1.map natToStr = l2.map natToStr := by
      injection h1 with h1a h1b
      exact h1b.symm
    exact List.map_injective_iff.mpr (fun _ _ hab => natToStr_inj hab) h2
  cases a1 with
  | none =>
    cases a2 with
    | none =>
      refine ⟨hbase ?_, rfl⟩
      have h1 := jsSplit_hash_encodeKey_none path idxs1 hpathH
      rw [h, jsSplit_hash_encodeKey_none path idxs2 hpathH] at h1
      injection h1
    | some s2 =>
      exfalso
      have h1 := jsSplit_hash_encodeKey_none path idxs1 hpathH
      rw [h, jsSplit_hash_encodeKey_some path idxs2 s2 hpathH (ha2 s2 rfl)] at h1
      injection h1 with _ h2
      exact List.noConfusion h2
  | some s1 =>
    cases a2 with
    | none =>
      exfalso
      have h1 := jsSplit_hash_encodeKey_some path idxs1 s1 hpathH (ha1 s1 rfl)
      rw [h, jsSplit_hash_encodeKey_none path idxs2 hpathH] at h1
      injection h1 with _ h2
      exact List.noConfusion h2
    | some s2 =>
      have h1 := jsSplit_hash_encodeKey_some path idxs1 s1 hpathH (ha1 s1 rfl)
      rw [h, jsSplit_hash_encodeKey_some path idxs2 s2 hpathH (ha2 s2 rfl)] at h1
      injection h1 with hx h2
      injection h2 with hy
      exact ⟨(hbase hx).symm, by rw [hy]⟩

theorem encodeKey_nil_none (path : String) : encodeKey path [] none = path := by
  show path ++ idxSuffix [] = path
  rw [show idxSuffix [] = "" from rfl, str_append_empty]

theorem encodeKey_nil_some (path a : String) :
    encodeKey path [] (some a) = path ++ "#" ++ a := by
  show path ++ idxSuffix [] ++ "#" ++ a = path ++ "#" ++ a
  rw [show idxSuffix [] = "" from rfl, str_append_empty]

theorem encodeKey_cons (path : String) (i : Nat) (idxs : List Nat)
    (attr : Option String) :
    encodeKey path (i :: idxs) attr =
      encodeKey (path ++ "/" ++ natToStr i) idxs attr := by
  cases attr with
  | none =>
    apply String.ext
    show path.data ++ ('/' :: (natToStr i).data ++ (idxSuffix idxs).data) =
      ((path.data ++ ['/']) ++ (natToStr i).data) ++ (idxSuffix idxs).data
    simp
  | some a =>
    apply String.ext
    show (path.data ++ ('/' :: (natToStr i).data ++ (idxSuffix idxs).data)) ++
        ['#'] ++ a.data =
      (((path.data ++ ['/']) ++ (natToStr i).data) ++ (idxSuffix idxs).data) ++
        ['#'] ++ a.data
    simp

theorem filterMap_congr' {α β : Type} (f g : α → Option β) :
    ∀ l : List α, (∀ a ∈ l, f a = g a) → l.filterMap f = l.filterMap g := by
  intro l
  induction l with
  | nil => intro _; rfl
  | cons a rest ih =>
    intro h
    rw [List.filterMap_cons, List.filterMap_cons, h a (List.mem_cons_self a rest),
      ih (fun x hx => h x (List.mem_cons_of_mem a hx))]

/-- The string-keyed extraction is the encoding of the location-level
extraction. -/
theorem extract_eq_encode :
    (∀ n : HNode, ∀ path : String,
      extractNode false path n =
        (extractNodeLocs n).map (fun e => (encodeKey path e.1 e.2.1, e.2.2))) ∧
    (∀ cs : List HNode, ∀ (path : String) (i : Nat),
      extractChildren false path i cs =
        (extractChildrenLocs i cs).map (fun e => (encodeKey path e.1 e.2.1, e.2.2))) := by
  suffices H : ∀ k : Nat,
      (∀ n : HNode, sizeOf n ≤ k → ∀ path : String,
        extractNode false path n =
          (extractNodeLocs n).map (fun e => (encodeKey path e.1 e.2.1, e.2.2))) ∧
      (∀ cs : List HNode, sizeOf cs ≤ k → ∀ (path : String) (i : Nat),
        extractChildren false path i cs =
          (extractChildrenLocs i cs).map
            (fun e => (encodeKey path e.1 e.2.1, e.2.2))) by
    exact ⟨fun n => (H (sizeOf n)).1 n le_rfl, fun cs => (H (sizeOf cs)).2 cs le_rfl⟩
  intro k
  induction k with
  | zero =>
    refine ⟨fun n hn => ?_, fun cs hcs => ?_⟩
    · cases n <;> simp at hn
    · cases cs <;> simp at hcs
  | succ k ih =>
    obtain ⟨ihN, ihL⟩ := ih
    refine ⟨fun n hn path => ?_, fun cs hcs path i => ?_⟩
    · cases n with
      | text s =>
        by_cases hs : jsTrim s = "" <;>
          simp [extractNode, extractNodeLocs, hs, encodeKey_nil_none]
      | element tag attrs children =>
        have hsz : sizeOf children ≤ k := by simp at hn; omega
        have hattr : (LOCALIZABLE_ATTRIBUTES tag).filterMap (fun a =>
            match getAttribute attrs a with
            | none => none
            | some v => if v = "" then none else some (path ++ "#" ++ a, v)) =
          ((LOCALIZABLE_ATTRIBUTES tag).filterMap (fun a =>
            match getAttribute attrs a with
            | none => none
            | some v =>
              if v = "" then none
              else some (([] : List Nat), some a, v))).map
            (fun e => (encodeKey path e.1 e.2.1, e.2.2)) := by
          rw [List.map_filterMap]
          apply filterMap_congr'
          intro a _
          cases hga : getAttribute attrs a with
          | none => simp
          | some v =>
            by_cases hv : v = "" <;> simp [hv, encodeKey_nil_some]
        by_cases hu : isUnlocalizableTag tag
        · have hbl : (false || isUnlocalizableTag tag) = true := by simp [hu]
          simp only [extractNode, extractNodeLocs, if_neg (by decide : ¬False),
            Bool.false_eq_true, if_pos hu, hbl, extractChildren_blocked,
            List.append_nil, List.map_append, List.map_nil]
          exact hattr
        · have hbl : (false || isUnlocalizableTag tag) = false := by simp [hu]
          simp only [extractNode, extractNodeLocs, Bool.false_eq_true,
            if_neg hu, hbl, List.map_append]
          rw [ihL children hsz path 0]
          rw [hattr]
          simp
    · cases cs with
      | nil => rfl
      | cons c rest =>
        have h1 : sizeOf c ≤ k := by simp at hcs; omega
        have h2 : sizeOf rest ≤ k := by simp at hcs; omega
        by_cases hs : significant c
        · have hmap : ((extractNodeLocs c).map
              (fun e => ((i :: e.1 : List Nat), e.2))).map
                (fun e => (encodeKey path e.1 e.2.1, e.2.2)) =
              (extractNodeLocs c).map
                (fun e => (encodeKey (path ++ "/" ++ natToStr i) e.1 e.2.1, e.2.2)) := by
            rw [List.map_map]
            apply List.map_congr_left
            intro e _
            show (encodeKey path (i :: e.1) e.2.1, e.2.2) = _
            rw [encodeKey_cons]
          simp only [extractChildren, extractChildrenLocs, if_pos hs,
            List.map_append, hmap, ihN c h1, ihL rest h2]
        · simp only [extractChildren, extractChildrenLocs, if_neg hs,
            ihL rest h2]

/-! ### List and skeleton utilities for the HTML round trip -/

theorem get?_append_len {α : Type} :
    ∀ (P cs : List α) (r : Nat), (P ++ cs).get? (P.length + r) = cs.get? r := by
  intro P
  induction P with
  | nil => intro cs r; simp
  | cons p P ih =>
    intro cs r
    have h : (p :: P).length + r = (P.length + r) + 1 := by
      simp [List.length_cons]; omega
    rw [h]
    show (P ++ cs).get? (P.length + r) = cs.get? r
    exact ih cs r

theorem set_append_len {α : Type} :
    ∀ (P cs : List α) (r : Nat) (x : α),
      (P ++ cs).set (P.length + r) x = P ++ cs.set r x := by
  intro P
  induction P with
  | nil => intro cs r x; simp
  | cons p P ih =>
    intro cs r x
    have h : (p :: P).length + r = (P.length + r) + 1 := by
      simp [List.length_cons]; omega
    rw [h]
    show p :: (P ++ cs).set (P.length + r) x = p :: (P ++ cs.set r x)
    rw [ih cs r x]

theorem nodup_of_length_le_one {α : Type} :
    ∀ l : List α, l.length ≤ 1 → l.Nodup := by
  intro l h
  match l with
  | [] => exact List.nodup_nil
  | [a] => simp
  | a :: b :: t => simp at h

theorem countSig_append (P Q : List HNode) :
    countSig (P ++ Q) = countSig P + countSig Q := by
  unfold countSig
  rw [List.filter_append, List.length_append]

theorem countSig_singleton (c : HNode) :
    countSig [c] = if significant c then 1 else 0 := by
  unfold countSig
  by_cases h : significant c <;> simp [h]

theorem jsTrim_eq_empty_iff (s : String) :
    jsTrim s = "" ↔ (jsTrimList s.data).isEmpty = true := by
  constructor
  · intro h
    have h2 : jsTrimList s.data = [] := congrArg String.data h
    rw [h2]; rfl
  · intro h
    apply String.ext
    show jsTrimList s.data = []
    exact List.isEmpty_iff.mp h

theorem sigResolve_cons_eq {j : Nat} {t : List Nat} {n : HNode} {r : Nat}
    {c : HNode} {res : Option (List Nat × HNode)}
    (h1 : sigIndexToRaw j (childrenOf n) = some r)
    (h2 : (childrenOf n).get? r = some c)
    (h3 : sigResolve t c = res) :
    sigResolve (j :: t) n = res.map (fun pr => (r :: pr.1, pr.2)) := by
  show (match sigIndexToRaw j (childrenOf n) with
    | none => none
    | some raw =>
      match (childrenOf n).get? raw with
      | none => none
      | some c => (sigResolve t c).map (fun pr => (raw :: pr.1, pr.2))) =
    res.map (fun pr => (r :: pr.1, pr.2))
  rw [h1]
  show (match (childrenOf n).get? r with
    | none => none
    | some c => (sigResolve t c).map (fun pr => (r :: pr.1, pr.2))) =
    res.map (fun pr => (r :: pr.1, pr.2))
  rw [h2]
  show (sigResolve t c).map (fun pr => (r :: pr.1, pr.2)) =
    res.map (fun pr => (r :: pr.1, pr.2))
  rw [h3]

/-- Every location-level extracted entry resolves: its significant-index
route reaches a node of the shape the entry describes. -/
theorem locs_sound :
    (∀ n : HNode, ∀ e ∈ extractNodeLocs n,
      ∃ raw m, sigResolve e.1 n = some (raw, m) ∧ EntryTarget e.2.1 e.2.2 m) ∧
    (∀ cs : List HNode, ∀ i : Nat, ∀ e ∈ extractChildrenLocs i cs,
      ∃ j t, e.1 = j :: t ∧ i ≤ j ∧
        ∃ r c, sigIndexToRaw (j - i) cs = some r ∧ cs.get? r = some c ∧
          ∃ raw m, sigResolve t c = some (raw, m) ∧ EntryTarget e.2.1 e.2.2 m) := by
  suffices H : ∀ k : Nat,
      (∀ n : HNode, sizeOf n ≤ k → ∀ e ∈ extractNodeLocs n,
        ∃ raw m, sigResolve e.1 n = some (raw, m) ∧ EntryTarget e.2.1 e.2.2 m) ∧
      (∀ cs : List HNode, sizeOf cs ≤ k → ∀ i : Nat, ∀ e ∈ extractChildrenLocs i cs,
        ∃ j t, e.1 = j :: t ∧ i ≤ j ∧
          ∃ r c, sigIndexToRaw (j - i) cs = some r ∧ cs.get? r = some c ∧
            ∃ raw m, sigResolve t c = some (raw, m) ∧ EntryTarget e.2.1 e.2.2 m) by
    exact ⟨fun n => (H (sizeOf n)).1 n le_rfl, fun cs => (H (sizeOf cs)).2 cs le_rfl⟩
  intro k
  induction k with
  | zero =>
    refine ⟨fun n hn => ?_, fun cs hcs => ?_⟩
    · cases n <;> simp at hn
    · cases cs <;> simp at hcs
  | succ k ih =>
    obtain ⟨ihN, ihL⟩ := ih
    refine ⟨fun n hn e he => ?_, fun cs hcs i e he => ?_⟩
    · cases n with
      | text s =>
        by_cases hs : jsTrim s = ""
        · simp [extractNodeLocs, hs] at he
        · simp only [extractNodeLocs, if_neg hs, List.mem_singleton] at he
          rw [he]
          exact ⟨[], .text s, rfl, ⟨s, rfl, rfl, hs⟩⟩
      | element tag attrs children =>
        have hsz : sizeOf children ≤ k := by simp at hn; omega
        simp only [extractNodeLocs] at he
        rcases List.mem_append.mp he with hA | hC
        · rcases List.mem_filterMap.mp hA with ⟨a, haTab, hfa⟩
          cases hga : getAttribute attrs a with
          | none => simp [hga] at hfa
          | some v =>
            simp only [hga] at hfa
            by_cases hv : v = ""
            · simp [hv] at hfa
            · rw [if_neg hv] at hfa
              injection hfa with hfa'
              rw [← hfa']
              exact ⟨[], .element tag attrs children, rfl,
                ⟨tag, attrs, children, rfl, haTab, hga, hv⟩⟩
        · by_cases hu : isUnlocalizableTag tag
          · rw [if_pos hu] at hC; exact absurd hC (List.not_mem_nil e)
          · rw [if_neg hu] at hC
            obtain ⟨j, t, h1, _, r, c, h3, h4, raw, m, h5, h6⟩ :=
              ihL children hsz 0 e hC
            rw [Nat.sub_zero] at h3
            refine ⟨r :: raw, m, ?_, h6⟩
            rw [h1]
            rw [sigResolve_cons_eq (n := .element tag attrs children)
              (show sigIndexToRaw j (childrenOf (.element tag attrs children)) = some r
                from h3)
              (show (childrenOf (.element tag attrs children)).get? r = some c from h4)
              h5]
            rfl
    · cases cs with
      | nil => simp [extractChildrenLocs] at he
      | cons c rest =>
        have h1 : sizeOf c ≤ k := by simp at hcs; omega
        have h2 : sizeOf rest ≤ k := by simp at hcs; omega
        by_cases hsg : significant c
        · simp only [extractChildrenLocs, if_pos hsg] at he
          rcases List.mem_append.mp he with hH | hT
          · rcases List.mem_map.mp hH with ⟨e', he', heq⟩
            obtain ⟨raw, m, hres, htgt⟩ := ihN c h1 e' he'
            refine ⟨i, e'.1, ?_, le_rfl, 0, c, ?_, rfl, raw, m, hres, ?_⟩
            · rw [← heq]
            · rw [Nat.sub_self]
              show (if significant c then some 0
                else (sigIndexToRaw 0 rest).map (· + 1)) = some 0
              rw [if_pos hsg]
            · rw [← heq]
              exact htgt
          · obtain ⟨j, t, hj1, hj2, r, cc, hj3, hj4, raw, m, hj5, hj6⟩ :=
              ihL rest h2 (i + 1) e hT
            refine ⟨j, t, hj1, by omega, r + 1, cc, ?_, hj4, raw, m, hj5, hj6⟩
            have hji : j - i = (j - (i + 1)) + 1 := by omega
            rw [hji]
            show (if significant c then
                match j - (i + 1) + 1 with
                | 0 => some 0
                | j' + 1 => (sigIndexToRaw j' rest).map (· + 1)
              else (sigIndexToRaw (j - (i + 1) + 1) rest).map (· + 1)) = some (r + 1)
            rw [if_pos hsg]
            show (sigIndexToRaw (j - (i + 1)) rest).map (· + 1) = some (r + 1)
            rw [hj3]
            rfl
        · simp only [extractChildrenLocs, if_neg hsg] at he
          obtain ⟨j, t, hj1, hj2, r, cc, hj3, hj4, raw, m, hj5, hj6⟩ :=
            ihL rest h2 i e he
          refine ⟨j, t, hj1, hj2, r + 1, cc, ?_, hj4, raw, m, hj5, hj6⟩
          show (if significant c then
              match j - i with
              | 0 => some 0
              | j' + 1 => (sigIndexToRaw j' rest).map (· + 1)
            else (sigIndexToRaw (j - i) rest).map (· + 1)) = some (r + 1)
          rw [if_neg hsg, hj3]
          rfl

theorem table_length_le_one (tag : String) :
    (LOCALIZABLE_ATTRIBUTES tag).length ≤ 1 := by
  unfold LOCALIZABLE_ATTRIBUTES
  by_cases h1 : tag = "meta" <;> by_cases h2 : tag = "img" <;>
    by_cases h3 : tag = "input" <;> by_cases h4 : tag = "a" <;>
      simp [h1, h2, h3, h4]

theorem extractChildrenLocs_shape (cs : List HNode) (i : Nat) :
    ∀ e ∈ extractChildrenLocs i cs, ∃ j t, e.1 = j :: t ∧ i ≤ j := by
  intro e he
  obtain ⟨j, t, h1, h2, _⟩ := locs_sound.2 cs i e he
  exact ⟨j, t, h1, h2⟩

theorem attrPart_loc_nil (tag : String) (attrs : List (String × String)) :
    ∀ e ∈ (LOCALIZABLE_ATTRIBUTES tag).filterMap (fun a =>
      match getAttribute attrs a with
      | none => none
      | some v => if v = "" then none else some (([] : List Nat), some a, v)),
      e.1 = ([] : List Nat) := by
  intro e he
  rcases List.mem_filterMap.mp he with ⟨a, _, hfa⟩
  cases hga : getAttribute attrs a with
  | none => simp [hga] at hfa
  | some v =>
    simp only [hga] at hfa
    by_cases hv : v = ""
    · simp [hv] at hfa
    · rw [if_neg hv] at hfa
      injection hfa with hfa'
      rw [← hfa']

/-- The (route, attribute) keys of the location-level extraction are
pairwise distinct. -/
theorem locs_keys_nodup :
    (∀ n : HNode, ((extractNodeLocs n).map (fun e => (e.1, e.2.1))).Nodup) ∧
    (∀ (cs : List HNode) (i : Nat),
      ((extractChildrenLocs i cs).map (fun e => (e.1, e.2.1))).Nodup) := by
  suffices H : ∀ k : Nat,
      (∀ n : HNode, sizeOf n ≤ k →
        ((extractNodeLocs n).map (fun e => (e.1, e.2.1))).Nodup) ∧
      (∀ cs : List HNode, sizeOf cs ≤ k → ∀ i : Nat,
        ((extractChildrenLocs i cs).map (fun e => (e.1, e.2.1))).Nodup) by
    exact ⟨fun n => (H (sizeOf n)).1 n le_rfl, fun cs => (H (sizeOf cs)).2 cs le_rfl⟩
  intro k
  induction k with
  | zero =>
    refine ⟨fun n hn => ?_, fun cs hcs => ?_⟩
    · cases n <;> simp at hn
    · cases cs <;> simp at hcs
  | succ k ih =>
    obtain ⟨ihN, ihL⟩ := ih
    refine ⟨fun n hn => ?_, fun cs hcs i => ?_⟩
    · cases n with
      | text s =>
        by_cases hs : jsTrim s = "" <;> simp [extractNodeLocs, hs]
      | element tag attrs children =>
        have hsz : sizeOf children ≤ k := by simp at hn; omega
        simp only [extractNodeLocs, List.map_append]
        rw [List.nodup_append]
        refine ⟨?_, ?_, ?_⟩
        · apply nodup_of_length_le_one
          rw [List.length_map]
          exact le_trans (List.length_filterMap_le _ _) (table_length_le_one tag)
        · by_cases hu : isUnlocalizableTag tag
          · simp [hu]
          · simp only [if_neg hu]
            exact ihL children hsz 0
        · intro a ha hb
          rcases List.mem_map.mp ha with ⟨e, heMem, heKey⟩
          have hA : a.1 = ([] : List Nat) := by
            rw [← heKey]
            exact attrPart_loc_nil tag attrs e heMem
          by_cases hu : isUnlocalizableTag tag
          · rw [if_pos hu] at hb; simp at hb
          · rw [if_neg hu] at hb
            rcases List.mem_map.mp hb with ⟨e', heMem', heKey'⟩
            obtain ⟨j, t, hshape, _⟩ := extractChildrenLocs_shape children 0 e' heMem'
            have hB : a.1 = j :: t := by rw [← heKey']; exact hshape
            rw [hA] at hB
            exact List.noConfusion hB
    · cases cs with
      | nil => simp [extractChildrenLocs]
      | cons c rest =>
        have h1 : sizeOf c ≤ k := by simp at hcs; omega
        have h2 : sizeOf rest ≤ k := by simp at hcs; omega
        by_cases hsg : significant c
        · simp only [extractChildrenLocs, if_pos hsg, List.map_append, List.map_map]
          rw [List.nodup_append]
          refine ⟨?_, ihL rest h2 (i + 1), ?_⟩
          · have hfun : ((fun e : List Nat × Option String × String =>
                (e.1, e.2.1)) ∘ (fun e : List Nat × Option String × String =>
                  (i :: e.1, e.2))) =
              ((fun p : List Nat × Option String =>
                ((i :: p.1 : List Nat), p.2)) ∘
                (fun e : List Nat × Option String × String => (e.1, e.2.1))) := by
              funext e; rfl
            rw [hfun, ← List.map_map]
            apply List.Nodup.map
            · intro p q hpq
              have hpq' : ((i :: p.1 : List Nat), p.2) = ((i :: q.1 : List Nat), q.2) :=
                hpq
              rw [Prod.mk.injEq] at hpq'
              obtain ⟨h1', h2'⟩ := hpq'
              injection h1' with _ h1''
              exact Prod.ext h1'' h2'
            · exact ihN c h1
          · intro a ha hb
            rcases List.mem_map.mp ha with ⟨e, _, heKey⟩
            have hA : a.1 = i :: e.1 := by rw [← heKey]; rfl
            rcases List.mem_map.mp hb with ⟨e', heMem', heKey'⟩
            obtain ⟨j, t, hshape, hij⟩ :=
              extractChildrenLocs_shape rest (i + 1) e' heMem'
            have hB : a.1 = j :: t := by rw [← heKey']; exact hshape
            rw [hA] at hB
            injection hB with hB1 _
            omega
        · simp only [extractChildrenLocs, if_neg hsg]
          exact ihL rest h2 i

/-! ### Skeletons determine what the injection descent observes -/

theorem significant_of_skel {a b : HNode} (h : skelOf a = skelOf b) :
    significant a = significant b := by
  cases a with
  | text s =>
    cases b with
    | text s' =>
      simp only [skelOf, Skel.txt.injEq] at h
      simp only [significant, h]
    | element t al cl => simp [skelOf] at h
  | element t al cl =>
    cases b with
    | text s' => simp [skelOf] at h
    | element t' al' cl' => rfl

theorem childrenOf_skel {a b : HNode} (h : skelOf a = skelOf b) :
    skelOfList (childrenOf a) = skelOfList (childrenOf b) := by
  cases a with
  | text s =>
    cases b with
    | text s' => rfl
    | element t al cl => simp [skelOf] at h
  | element t al cl =>
    cases b with
    | text s' => simp [skelOf] at h
    | element t' al' cl' =>
      simp only [skelOf, Skel.elem.injEq] at h
      simpa [childrenOf] using h

theorem sigIndexToRaw_skel :
    ∀ (cs1 cs2 : List HNode), skelOfList cs1 = skelOfList cs2 →
      ∀ j : Nat, sigIndexToRaw j cs1 = sigIndexToRaw j cs2 := by
  intro cs1
  induction cs1 with
  | nil =>
    intro cs2 h j
    cases cs2 with
    | nil => rfl
    | cons c t => simp [skelOfList] at h
  | cons c t ih =>
    intro cs2 h j
    cases cs2 with
    | nil => simp [skelOfList] at h
    | cons c' t' =>
      simp only [skelOfList, List.cons.injEq] at h
      obtain ⟨h1, h2⟩ := h
      have hsig := significant_of_skel h1
      cases j with
      | zero =>
        show (if significant c then some 0 else (sigIndexToRaw 0 t).map (· + 1)) =
          (if significant c' then some 0 else (sigIndexToRaw 0 t').map (· + 1))
        rw [hsig, ih t' h2 0]
      | succ j' =>
        show (if significant c then (sigIndexToRaw j' t).map (· + 1)
            else (sigIndexToRaw (j' + 1) t).map (· + 1)) =
          (if significant c' then (sigIndexToRaw j' t').map (· + 1)
            else (sigIndexToRaw (j' + 1) t').map (· + 1))
        rw [hsig, ih t' h2 j', ih t' h2 (j' + 1)]

theorem get?_skel :
    ∀ (cs1 cs2 : List HNode), skelOfList cs1 = skelOfList cs2 →
      ∀ r : Nat, (cs1.get? r).map skelOf = (cs2.get? r).map skelOf := by
  intro cs1
  induction cs1 with
  | nil =>
    intro cs2 h r
    cases cs2 with
    | nil => rfl
    | cons c t => simp [skelOfList] at h
  | cons c t ih =>
    intro cs2 h r
    cases cs2 with
    | nil => simp [skelOfList] at h
    | cons c' t' =>
      simp only [skelOfList, List.cons.injEq] at h
      obtain ⟨h1, h2⟩ := h
      cases r with
      | zero => simpa using h1
      | succ r' => exact ih t' h2 r'

theorem nodeAt_cons_eq {i : Nat} {t : List Nat} {n c : HNode}
    (h : (childrenOf n).get? i = some c) : nodeAt (i :: t) n = nodeAt t c := by
  show (match (childrenOf n).get? i with
    | none => none
    | some c => nodeAt t c) = nodeAt t c
  rw [h]

theorem nodeAt_cons_none {i : Nat} {t : List Nat} {n : HNode}
    (h : (childrenOf n).get? i = none) : nodeAt (i :: t) n = none := by
  show (match (childrenOf n).get? i with
    | none => none
    | some c => nodeAt t c) = none
  rw [h]

theorem nodeAt_append_some :
    ∀ (l1 : List Nat) {l2 : List Nat} {n m : HNode},
      nodeAt l1 n = some m → nodeAt (l1 ++ l2) n = nodeAt l2 m := by
  intro l1
  induction l1 with
  | nil =>
    intro l2 n m h
    injection h with h'
    rw [List.nil_append, h']
  | cons i t ih =>
    intro l2 n m h
    cases hg : (childrenOf n).get? i with
    | none => rw [nodeAt_cons_none hg] at h; exact absurd h (by simp)
    | some c =>
      rw [nodeAt_cons_eq hg] at h
      rw [List.cons_append, nodeAt_cons_eq hg]
      exact ih h

theorem nodeAt_skel :
    ∀ (loc : List Nat) (n h m : HNode), skelOf h = skelOf n →
      nodeAt loc n = some m →
      ∃ hm, nodeAt loc h = some hm ∧ skelOf hm = skelOf m := by
  intro loc
  induction loc with
  | nil =>
    intro n h m hsk hres
    injection hres with h'
    exact ⟨h, rfl, by rw [hsk, h']⟩
  | cons i t ih =>
    intro n h m hsk hres
    cases hg : (childrenOf n).get? i with
    | none => rw [nodeAt_cons_none hg] at hres; exact absurd hres (by simp)
    | some c =>
      rw [nodeAt_cons_eq hg] at hres
      have hch := childrenOf_skel hsk
      have hgs := get?_skel (childrenOf h) (childrenOf n) hch i
      rw [hg] at hgs
      cases hg' : (childrenOf h).get? i with
      | none => rw [hg'] at hgs; exact absurd hgs (by simp)
      | some ch =>
        rw [hg'] at hgs
        have hchsk : skelOf ch = skelOf c := by
          injection hgs with h''
        obtain ⟨hm, hh, hs⟩ := ih c ch m hchsk hres
        exact ⟨hm, by rw [nodeAt_cons_eq hg']; exact hh, hs⟩

theorem sigResolve_nodeAt :
    ∀ (idxs : List Nat) (n : HNode) (raw : List Nat) (m : HNode),
      sigResolve idxs n = some (raw, m) → nodeAt raw n = some m := by
  intro idxs
  induction idxs with
  | nil =>
    intro n raw m h
    injection h with h'
    injection h' with h1 h2
    subst h2
    rw [← h1]
    rfl
  | cons j t ih =>
    intro n raw m h
    cases hg : sigIndexToRaw j (childrenOf n) with
    | none =>
      have hnone : sigResolve (j :: t) n = none := by
        show (match sigIndexToRaw j (childrenOf n) with
          | none => none
          | some raw =>
            match (childrenOf n).get? raw with
            | none => none
            | some c => (sigResolve t c).map (fun pr => (raw :: pr.1, pr.2))) = none
        rw [hg]
      rw [hnone] at h; exact absurd h (by simp)
    | some r =>
      cases hgc : (childrenOf n).get? r with
      | none =>
        have hnone : sigResolve (j :: t) n = none := by
          show (match sigIndexToRaw j (childrenOf n) with
            | none => none
            | some raw =>
              match (childrenOf n).get? raw with
              | none => none
              | some c => (sigResolve t c).map (fun pr => (raw :: pr.1, pr.2))) = none
          rw [hg]
          show (match (childrenOf n).get? r with
            | none => none
            | some c => (sigResolve t c).map (fun pr => (r :: pr.1, pr.2))) = none
          rw [hgc]
        rw [hnone] at h; exact absurd h (by simp)
      | some c =>
        cases hrc : sigResolve t c with
        | none =>
          have heq := sigResolve_cons_eq hg hgc hrc
          rw [heq] at h; exact absurd h (by simp)
        | some pr =>
          have heq := sigResolve_cons_eq hg hgc hrc
          rw [heq] at h
          injection h with h'
          injection h' with h1 h2
          subst h2
          rw [← h1]
          rw [nodeAt_cons_eq hgc]
          exact ih c pr.1 pr.2 (by rw [hrc])

theorem skelOfList_set :
    ∀ (cs : List HNode) (i : Nat) (c x : HNode),
      cs.get? i = some c → skelOf x = skelOf c →
      skelOfList (cs.set i x) = skelOfList cs := by
  intro cs
  induction cs with
  | nil => intro i c x hg _; simp at hg
  | cons a t ih =>
    intro i c x hg hsk
    cases i with
    | zero =>
      injection hg with hg'
      show skelOf x :: skelOfList t = skelOf a :: skelOfList t
      rw [hsk, hg']
    | succ i' =>
      show skelOf a :: skelOfList (t.set i' x) = skelOf a :: skelOfList t
      rw [ih i' c x hg hsk]

theorem skel_updateAt :
    ∀ (loc : List Nat) (h tgt : HNode) (f : HNode → HNode),
      nodeAt loc h = some tgt → skelOf (f tgt) = skelOf tgt →
      skelOf (updateAt f loc h) = skelOf h := by
  intro loc
  induction loc with
  | nil =>
    intro h tgt f hres hf
    injection hres with h'
    show skelOf (f h) = skelOf h
    rw [h']
    exact hf
  | cons i t ih =>
    intro h tgt f hres hf
    cases h with
    | text s => rfl
    | element tag attrs cs =>
      cases hg : cs.get? i with
      | none =>
        show skelOf (match cs.get? i with
          | none => HNode.element tag attrs cs
          | some c => HNode.element tag attrs (cs.set i (updateAt f t c))) =
          skelOf (HNode.element tag attrs cs)
        rw [hg]
      | some c =>
        have hres' : nodeAt t c = some tgt := by
          rw [nodeAt_cons_eq
            (show (childrenOf (HNode.element tag attrs cs)).get? i = some c
              from hg)] at hres
          exact hres
        show skelOf (match cs.get? i with
          | none => HNode.element tag attrs cs
          | some c => HNode.element tag attrs (cs.set i (updateAt f t c))) =
          skelOf (HNode.element tag attrs cs)
        rw [hg]
        show Skel.elem (skelOfList (cs.set i (updateAt f t c))) =
          Skel.elem (skelOfList cs)
        rw [skelOfList_set cs i c (updateAt f t c) hg (ih c tgt f hres' hf)]

theorem skelOf_writeFn_attr (v a : String) (m : HNode) :
    skelOf (writeFn v (some a) m) = skelOf m := by
  cases m with
  | text s => rfl
  | element tag attrs cs => rfl

theorem skelOf_writeFn_text {v s : String} {m : HNode}
    (hm : m = HNode.text s) (hs : (jsTrimList s.data).isEmpty = false)
    (hv : (jsTrimList v.data).isEmpty = false) :
    skelOf (writeFn v none m) = skelOf m := by
  subst hm
  show Skel.txt (jsTrimList v.data).isEmpty = Skel.txt (jsTrimList s.data).isEmpty
  rw [hs, hv]

theorem sigResolve_cons_inv {j : Nat} {t : List Nat} {n : HNode} {raw : List Nat}
    {m : HNode} (h : sigResolve (j :: t) n = some (raw, m)) :
    ∃ r c pr, sigIndexToRaw j (childrenOf n) = some r ∧
      (childrenOf n).get? r = some c ∧ sigResolve t c = some pr ∧
      raw = r :: pr.1 ∧ m = pr.2 := by
  cases hg : sigIndexToRaw j (childrenOf n) with
  | none =>
    have hnone : sigResolve (j :: t) n = none := by
      show (match sigIndexToRaw j (childrenOf n) with
        | none => none
        | some raw =>
          match (childrenOf n).get? raw with
          | none => none
          | some c => (sigResolve t c).map (fun pr => (raw :: pr.1, pr.2))) = none
      rw [hg]
    rw [hnone] at h
    exact absurd h (by simp)
  | some r =>
    cases hgc : (childrenOf n).get? r with
    | none =>
      have hnone : sigResolve (j :: t) n = none := by
        show (match sigIndexToRaw j (childrenOf n) with
          | none => none
          | some raw =>
            match (childrenOf n).get? raw with
            | none => none
            | some c => (sigResolve t c).map (fun pr => (raw :: pr.1, pr.2))) = none
        rw [hg]
        show (match (childrenOf n).get? r with
          | none => none
          | some c => (sigResolve t c).map (fun pr => (r :: pr.1, pr.2))) = none
        rw [hgc]
      rw [hnone] at h
      exact absurd h (by simp)
    | some c =>
      cases hrc : sigResolve t c with
      | none =>
        rw [sigResolve_cons_eq hg hgc hrc] at h
        exact absurd h (by simp)
      | some pr =>
        rw [sigResolve_cons_eq hg hgc hrc] at h
        injection h with h'
        injection h' with h1 h2
        exact ⟨r, c, pr, rfl, hgc, hrc, h1.symm, h2.symm⟩

theorem descend_step_last {h hm : HNode} {seg : String} {parentLoc : List Nat}
    {cur : Option (List Nat)} {j r : Nat}
    (hbase : nodeAt parentLoc h = some hm)
    (hseg : jsParseInt seg = some (j : Int))
    (hsig : sigIndexToRaw j (childrenOf hm) = some r) :
    descend h [seg] parentLoc cur = some (parentLoc ++ [r]) := by
  have hneg : ¬((j : Int) < 0) := by omega
  conv_lhs => rw [descend.eq_def]
  dsimp only
  rw [hbase]
  dsimp only
  rw [hseg]
  dsimp only
  rw [if_neg hneg, Int.toNat_natCast, hsig]
  dsimp only
  rw [descend.eq_def]

theorem descend_step_elem {h hm : HNode} {seg : String} {rest : List String}
    {parentLoc : List Nat} {cur : Option (List Nat)} {j r : Nat}
    {etag : String} {eattrs : List (String × String)} {ecs : List HNode}
    (hbase : nodeAt parentLoc h = some hm)
    (hseg : jsParseInt seg = some (j : Int))
    (hsig : sigIndexToRaw j (childrenOf hm) = some r)
    (hch : nodeAt (parentLoc ++ [r]) h = some (HNode.element etag eattrs ecs)) :
    descend h (seg :: rest) parentLoc cur =
      descend h rest (parentLoc ++ [r]) (some (parentLoc ++ [r])) := by
  have hneg : ¬((j : Int) < 0) := by omega
  conv_lhs => rw [descend.eq_def]
  dsimp only
  rw [hbase]
  dsimp only
  rw [hseg]
  dsimp only
  rw [if_neg hneg, Int.toNat_natCast, hsig]
  dsimp only
  rw [hch]

/-- Replaying a resolvable significant-index route through the descent loop
against any tree with the same skeleton reaches the corresponding raw
route. -/
theorem descend_resolve :
    ∀ (idxs : List Nat) (h n hm : HNode) (base raw : List Nat) (mfin : HNode),
      nodeAt base h = some hm → skelOf hm = skelOf n →
      sigResolve idxs n = some (raw, mfin) →
      descend h (idxs.map natToStr) base (some base) = some (base ++ raw) := by
  intro idxs
  induction idxs with
  | nil =>
    intro h n hm base raw mfin _ _ hres
    injection hres with h'
    injection h' with h1 h2
    rw [List.map_nil]
    show some base = some (base ++ raw)
    rw [← h1, List.append_nil]
  | cons j t ih =>
    intro h n hm base raw mfin hbase hsk hres
    obtain ⟨r, c, pr, hg, hgc, hrc, hraw, hmfin⟩ := sigResolve_cons_inv hres
    have hch := childrenOf_skel hsk
    have hgr : sigIndexToRaw j (childrenOf hm) = some r := by
      rw [sigIndexToRaw_skel (childrenOf hm) (childrenOf n) hch j, hg]
    have hgcs := get?_skel (childrenOf hm) (childrenOf n) hch r
    rw [hgc] at hgcs
    cases hghm : (childrenOf hm).get? r with
    | none => rw [hghm] at hgcs; exact absurd hgcs (by simp)
    | some ch =>
      rw [hghm] at hgcs
      have hchs : skelOf ch = skelOf c := by injection hgcs with hh
      have hnodeCh : nodeAt (base ++ [r]) h = some ch := by
        rw [nodeAt_append_some base hbase]
        exact nodeAt_cons_eq hghm
      rw [List.map_cons]
      cases t with
      | nil =>
        have hpr : pr = (([] : List Nat), c) := by
          injection hrc with h'
          exact h'.symm
        rw [List.map_nil, descend_step_last hbase (jsParseInt_natToStr j) hgr]
        rw [hraw, hpr]
      | cons j2 t2 =>
        obtain ⟨r2, c2, pr2, hg2, _, _, _, _⟩ := sigResolve_cons_inv hrc
        cases c with
        | text s =>
          rw [show childrenOf (HNode.text s) = [] from rfl] at hg2
          simp [sigIndexToRaw] at hg2
        | element ctag cattrs ccs =>
          cases ch with
          | text s' => simp [skelOf] at hchs
          | element ht ha hc =>
            rw [descend_step_elem hbase (jsParseInt_natToStr j) hgr hnodeCh]
            rw [ih h (HNode.element ctag cattrs ccs) (HNode.element ht ha hc)
              (base ++ [r]) pr.1 pr.2 hnodeCh hchs (by rw [hrc])]
            rw [hraw, List.append_assoc]
            rfl

/-- One injection step with an encoded key performs exactly the statically
resolved write. -/
theorem injectIntoRoot_encoded {root : String}
    (hrootH : ∀ c ∈ root.data, ¬ c = '#') (hrootS : ∀ c ∈ root.data, ¬ c = '/')
    {h n : HNode} (hsk : skelOf h = skelOf n)
    {idxs raw : List Nat} {attr : Option String} {mfin : HNode} {v : String}
    (hres : sigResolve idxs n = some (raw, mfin))
    (hattrH : ∀ s, attr = some s → ∀ c ∈ s.data, ¬ c = '#') :
    injectIntoRoot h (encodeKey root idxs attr) v =
      updateAt (writeFn v attr) raw h := by
  have hdesc : descend h (idxs.map natToStr) [] (some []) = some raw := by
    have hd := descend_resolve idxs h n h [] raw mfin rfl hsk hres
    rwa [List.nil_append] at hd
  cases attr with
  | none =>
    have hsplit : jsSplit '#' (encodeKey root idxs none) = [root ++ idxSuffix idxs] :=
      jsSplit_hash_encodeKey_none root idxs hrootH
    unfold injectIntoRoot
    dsimp only
    rw [hsplit]
    simp only [List.get?_cons_zero, List.get?_cons_succ, List.get?_nil,
      Option.getD_some]
    rw [jsSplit_slash_idxSuffix idxs root hrootS]
    simp only [List.tail_cons]
    rw [hdesc]
    rfl
  | some a =>
    have hsplit : jsSplit '#' (encodeKey root idxs (some a)) =
        [root ++ idxSuffix idxs, a] :=
      jsSplit_hash_encodeKey_some root idxs a hrootH (hattrH a rfl)
    unfold injectIntoRoot
    dsimp only
    rw [hsplit]
    simp only [List.get?_cons_zero, List.get?_cons_succ, List.get?_nil,
      Option.getD_some]
    rw [jsSplit_slash_idxSuffix idxs root hrootS]
    simp only [List.tail_cons]
    rw [hdesc]
    rfl

/-- A statically resolved write of a non-blank value at an extracted target
preserves the tree's skeleton. -/
theorem skel_write {h n : HNode} (hsk : skelOf h = skelOf n)
    {idxs raw : List Nat} {attr : Option String} {m : HNode} {v0 v : String}
    (hres : sigResolve idxs n = some (raw, m))
    (htgt : EntryTarget attr v0 m)
    (hv : (jsTrimList v.data).isEmpty = false) :
    skelOf (updateAt (writeFn v attr) raw h) = skelOf h := by
  have hnode : nodeAt raw n = some m := sigResolve_nodeAt idxs n raw m hres
  obtain ⟨tgt, htgtAt, htgtSk⟩ := nodeAt_skel raw n h m hsk hnode
  apply skel_updateAt raw h tgt _ htgtAt
  cases attr with
  | some a => exact skelOf_writeFn_attr v a tgt
  | none =>
    obtain ⟨s, hm, htrim, hne⟩ := htgt
    have hblank : (jsTrimList s.data).isEmpty = false := by
      cases hbb : (jsTrimList s.data).isEmpty with
      | false => rfl
      | true =>
        have h0 : jsTrim s = "" := (jsTrim_eq_empty_iff s).mpr hbb
        rw [htrim] at h0
        exact absurd h0 hne
    cases tgt with
    | element t2 a2 c2 =>
      rw [hm] at htgtSk
      simp [skelOf] at htgtSk
    | text s' =>
      have hb' : (jsTrimList s'.data).isEmpty = false := by
        rw [hm] at htgtSk
        simp only [skelOf, Skel.txt.injEq] at htgtSk
        rw [htgtSk, hblank]
      exact skelOf_writeFn_text rfl hb' hv

/-- Replaying the injection loop over encoded extracted entries equals
folding the statically resolved writes. -/
theorem fold_inject_eq_fold_resolved (tr : String → String → String)
    (root : String) (hrootH : ∀ c ∈ root.data, ¬ c = '#')
    (hrootS : ∀ c ∈ root.data, ¬ c = '/')
    (htr : ∀ p v, jsTrim (tr p v) ≠ "") :
    ∀ (es : List (List Nat × Option String × String)) (n h : HNode),
      skelOf h = skelOf n →
      (∀ e ∈ es, ∃ raw m, sigResolve e.1 n = some (raw, m) ∧
        EntryTarget e.2.1 e.2.2 m) →
      (es.map (fun e => (encodeKey root e.1 e.2.1,
          tr (encodeKey root e.1 e.2.1) e.2.2))).foldl
          (fun acc kv => injectIntoRoot acc kv.1 kv.2) h =
        (es.map (fun e => ((sigResolve e.1 n).map Prod.fst, e.2.1,
          tr (encodeKey root e.1 e.2.1) e.2.2))).foldl applyResolved h := by
  intro es
  induction es with
  | nil => intro n h _ _; rfl
  | cons e rest ih =>
    intro n h hsk hall
    obtain ⟨raw, m, hres, htgt⟩ := hall e (List.mem_cons_self e rest)
    have hattrH : ∀ s, e.2.1 = some s → ∀ c ∈ s.data, ¬ c = '#' := by
      intro s hs c hc
      rw [hs] at htgt
      obtain ⟨tag, attrs, cs, _, hmem, _, _⟩ := htgt
      exact table_attr_no_hash tag s hmem c hc
    rw [List.map_cons, List.map_cons, List.foldl_cons, List.foldl_cons]
    have hstep : injectIntoRoot h (encodeKey root e.1 e.2.1)
        (tr (encodeKey root e.1 e.2.1) e.2.2) =
        updateAt (writeFn (tr (encodeKey root e.1 e.2.1) e.2.2) e.2.1) raw h :=
      injectIntoRoot_encoded hrootH hrootS hsk hres hattrH
    have happly : applyResolved h ((sigResolve e.1 n).map Prod.fst, e.2.1,
        tr (encodeKey root e.1 e.2.1) e.2.2) =
        updateAt (writeFn (tr (encodeKey root e.1 e.2.1) e.2.2) e.2.1) raw h := by
      unfold applyResolved
      rw [hres]
      rfl
    rw [hstep, happly]
    have hv : (jsTrimList (tr (encodeKey root e.1 e.2.1) e.2.2).data).isEmpty =
        false := by
      cases hbb : (jsTrimList (tr (encodeKey root e.1 e.2.1) e.2.2).data).isEmpty with
      | false => rfl
      | true => exact absurd ((jsTrim_eq_empty_iff _).mpr hbb) (htr _ _)
    have hsk' : skelOf (updateAt
        (writeFn (tr (encodeKey root e.1 e.2.1) e.2.2) e.2.1) raw h) = skelOf n := by
      rw [skel_write hsk hres htgt hv]
      exact hsk
    exact ih n _ hsk' (fun e' he' => hall e' (List.mem_cons_of_mem e he'))

/-! ### Static resolution and the statically folded writes -/

theorem sigIndexToRaw_prefix :
    ∀ (P cs : List HNode) (j' : Nat),
      sigIndexToRaw (countSig P + j') (P ++ cs) =
        (sigIndexToRaw j' cs).map (· + P.length) := by
  intro P
  induction P with
  | nil =>
    intro cs j'
    rw [show countSig ([] : List HNode) = 0 from rfl, Nat.zero_add, List.nil_append]
    cases hx : sigIndexToRaw j' cs <;> simp
  | cons p P ih =>
    intro cs j'
    by_cases hp : significant p
    · have hc : countSig (p :: P) = countSig P + 1 := by
        unfold countSig
        simp [List.filter_cons, hp]
      rw [hc, show countSig P + 1 + j' = (countSig P + j') + 1 from by omega,
        List.cons_append]
      simp only [sigIndexToRaw]
      rw [if_pos hp]
      show (sigIndexToRaw (countSig P + j') (P ++ cs)).map (· + 1) =
        (sigIndexToRaw j' cs).map (· + (p :: P).length)
      rw [ih cs j']
      cases hx : sigIndexToRaw j' cs <;> simp [List.length_cons, Nat.add_assoc]
    · have hc : countSig (p :: P) = countSig P := by
        unfold countSig
        simp [List.filter_cons, hp]
      rw [hc, List.cons_append]
      simp only [sigIndexToRaw]
      rw [if_neg hp]
      rw [ih cs j']
      cases hx : sigIndexToRaw j' cs <;> simp [List.length_cons, Nat.add_assoc]

theorem applyResolved_lift (tag : String) (attrs : List (String × String))
    (P rest : List HNode) (c : HNode)
    (w : Option (List Nat) × Option String × String) :
    applyResolved (HNode.element tag attrs (P ++ c :: rest))
      (w.1.map (fun l => P.length :: l), w.2) =
    HNode.element tag attrs (P ++ (applyResolved c w) :: rest) := by
  cases hw : w.1 with
  | none =>
    unfold applyResolved
    rw [hw]
    rfl
  | some loc =>
    unfold applyResolved
    rw [hw]
    show updateAt (writeFn w.2.2 w.2.1) (P.length :: loc)
        (HNode.element tag attrs (P ++ c :: rest)) =
      HNode.element tag attrs (P ++ (updateAt (writeFn w.2.2 w.2.1) loc c) :: rest)
    have hget : (P ++ c :: rest).get? P.length = some c := by
      have hx := get?_append_len P (c :: rest) 0
      rwa [Nat.add_zero] at hx
    have hset := set_append_len P (c :: rest) 0 (updateAt (writeFn w.2.2 w.2.1) loc c)
    rw [Nat.add_zero] at hset
    show (match (P ++ c :: rest).get? P.length with
      | none => HNode.element tag attrs (P ++ c :: rest)
      | some cc => HNode.element tag attrs
          ((P ++ c :: rest).set P.length (updateAt (writeFn w.2.2 w.2.1) loc cc))) =
      HNode.element tag attrs (P ++ (updateAt (writeFn w.2.2 w.2.1) loc c) :: rest)
    rw [hget]
    show HNode.element tag attrs
        ((P ++ c :: rest).set P.length (updateAt (writeFn w.2.2 w.2.1) loc c)) =
      HNode.element tag attrs (P ++ (updateAt (writeFn w.2.2 w.2.1) loc c) :: rest)
    rw [hset]
    rfl

theorem fold_lift :
    ∀ (ws : List (Option (List Nat) × Option String × String)) (tag : String)
      (attrs : List (String × String)) (P rest : List HNode) (c : HNode),
      (ws.map (fun w => (w.1.map (fun l => P.length :: l), w.2))).foldl
          applyResolved (HNode.element tag attrs (P ++ c :: rest)) =
        HNode.element tag attrs (P ++ (ws.foldl applyResolved c) :: rest) := by
  intro ws
  induction ws with
  | nil => intro tag attrs P rest c; rfl
  | cons w ws ih =>
    intro tag attrs P rest c
    show (ws.map (fun w => (w.1.map (fun l => P.length :: l), w.2))).foldl
        applyResolved
        (applyResolved (HNode.element tag attrs (P ++ c :: rest))
          (w.1.map (fun l => P.length :: l), w.2)) =
      HNode.element tag attrs (P ++ ((w :: ws).foldl applyResolved c) :: rest)
    rw [applyResolved_lift tag attrs P rest c w]
    exact ih tag attrs P rest (applyResolved c w)

theorem specTranslateNode_blocked (tr : String → String → String)
    (c : HNode) (path : String) : specTranslateNode tr true path c = c := by
  cases c with
  | text s => rfl
  | element t a cs => rfl

theorem specTranslateChildren_blocked (tr : String → String → String) :
    ∀ (cs : List HNode) (path : String) (i : Nat),
      specTranslateChildren tr true path i cs = cs := by
  intro cs
  induction cs with
  | nil => intro path i; rfl
  | cons c rest ih =>
    intro path i
    by_cases hs : significant c
    · show (if significant c then
          specTranslateNode tr true (path ++ "/" ++ natToStr i) c ::
            specTranslateChildren tr true path (i + 1) rest
        else c :: specTranslateChildren tr true path i rest) = c :: rest
      rw [if_pos hs, specTranslateNode_blocked tr c _, ih path (i + 1)]
    · show (if significant c then
          specTranslateNode tr true (path ++ "/" ++ natToStr i) c ::
            specTranslateChildren tr true path (i + 1) rest
        else c :: specTranslateChildren tr true path i rest) = c :: rest
      rw [if_neg hs, ih path i]

theorem significant_specTranslateNode (tr : String → String → String)
    (htr : ∀ p v, jsTrim (tr p v) ≠ "") (c : HNode) (path : String) :
    significant (specTranslateNode tr false path c) = significant c := by
  cases c with
  | element t a cs => rfl
  | text s =>
    show significant (if jsTrim s = "" then HNode.text s
      else HNode.text (tr path (jsTrim s))) = significant (HNode.text s)
    by_cases hb : jsTrim s = ""
    · rw [if_pos hb]
    · rw [if_neg hb]
      show (!(jsTrimList (tr path (jsTrim s)).data).isEmpty) =
        (!(jsTrimList s.data).isEmpty)
      have h1 : (jsTrimList (tr path (jsTrim s)).data).isEmpty = false := by
        cases hx : (jsTrimList (tr path (jsTrim s)).data).isEmpty with
        | false => rfl
        | true => exact absurd ((jsTrim_eq_empty_iff _).mpr hx) (htr _ _)
      have h2 : (jsTrimList s.data).isEmpty = false := by
        cases hx : (jsTrimList s.data).isEmpty with
        | false => rfl
        | true => exact absurd ((jsTrim_eq_empty_iff s).mpr hx) hb
      rw [h1, h2]

theorem getAttribute_of_nodup_mem :
    ∀ (attrs : List (String × String)), (attrs.map Prod.fst).Nodup →
      ∀ kv ∈ attrs, getAttribute attrs kv.1 = some kv.2 := by
  intro attrs
  induction attrs with
  | nil => intro _ kv hkv; simp at hkv
  | cons a rest ih =>
    intro hnd kv hkv
    rw [List.map_cons, List.nodup_cons] at hnd
    obtain ⟨hna, hnd'⟩ := hnd
    rcases List.mem_cons.mp hkv with rfl | hkv'
    · unfold getAttribute
      rw [List.find?_cons_of_pos rest (by simp)]
      rfl
    · have hne : ¬(a.1 = kv.1) := by
        intro he
        exact hna (by rw [he]; exact List.mem_map_of_mem Prod.fst hkv')
      unfold getAttribute
      rw [List.find?_cons_of_neg rest (by simp [hne])]
      exact ih hnd' kv hkv'

theorem LOCALIZABLE_ATTRIBUTES_cases (tag : String) :
    LOCALIZABLE_ATTRIBUTES tag = [] ∨ ∃ a, LOCALIZABLE_ATTRIBUTES tag = [a] := by
  unfold LOCALIZABLE_ATTRIBUTES
  by_cases h1 : tag = "meta"
  · exact Or.inr ⟨"content", by simp [h1]⟩
  by_cases h2 : tag = "img"
  · exact Or.inr ⟨"alt", by simp [h1, h2]⟩
  by_cases h3 : tag = "input"
  · exact Or.inr ⟨"placeholder", by simp [h1, h2, h3]⟩
  by_cases h4 : tag = "a"
  · exact Or.inr ⟨"title", by simp [h1, h2, h3, h4]⟩
  · exact Or.inl (by simp [h1, h2, h3, h4])

theorem any_of_getAttribute {attrs : List (String × String)} {name v : String}
    (h : getAttribute attrs name = some v) :
    attrs.any (fun kv => kv.1 = name) = true := by
  unfold getAttribute at h
  cases hf : attrs.find? (fun kv => kv.1 = name) with
  | none => rw [hf] at h; simp at h
  | some kv =>
    have hp := List.find?_some hf
    have hm := List.mem_of_find?_eq_some hf
    exact List.any_eq_true.mpr ⟨kv, hm, hp⟩

theorem setAttribute_of_getAttribute {attrs : List (String × String)}
    {name v : String} (w : String) (h : getAttribute attrs name = some v) :
    setAttribute attrs name w =
      attrs.map (fun kv => if kv.1 = name then (kv.1, w) else kv) := by
  unfold setAttribute
  rw [if_pos (any_of_getAttribute h)]

theorem sigResolve_cons_none1 {j : Nat} {t : List Nat} {n : HNode}
    (h : sigIndexToRaw j (childrenOf n) = none) : sigResolve (j :: t) n = none := by
  show (match sigIndexToRaw j (childrenOf n) with
    | none => none
    | some raw =>
      match (childrenOf n).get? raw with
      | none => none
      | some c => (sigResolve t c).map (fun pr => (raw :: pr.1, pr.2))) = none
  rw [h]

theorem sigResolve_cons_none2 {j : Nat} {t : List Nat} {n : HNode} {r : Nat}
    (h1 : sigIndexToRaw j (childrenOf n) = some r)
    (h2 : (childrenOf n).get? r = none) : sigResolve (j :: t) n = none := by
  show (match sigIndexToRaw j (childrenOf n) with
    | none => none
    | some raw =>
      match (childrenOf n).get? raw with
      | none => none
      | some c => (sigResolve t c).map (fun pr => (raw :: pr.1, pr.2))) = none
  rw [h1]
  show (match (childrenOf n).get? r with
    | none => none
    | some c => (sigResolve t c).map (fun pr => (r :: pr.1, pr.2))) = none
  rw [h2]

/-- Child entries of an element resolve through the element exactly as
`resolvedChildWrites` resolves them against its child list. -/
theorem childWrites_eq (tr : String → String → String) (path : String)
    (tag : String) (attrs : List (String × String)) (cs : List HNode)
    (cs' : List HNode) (i : Nat) :
    (extractChildrenLocs i cs').map (fun e =>
      ((sigResolve e.1 (HNode.element tag attrs cs)).map Prod.fst, e.2.1,
        tr (encodeKey path e.1 e.2.1) e.2.2)) =
    resolvedChildWrites tr path cs i cs' := by
  unfold resolvedChildWrites
  apply List.map_congr_left
  intro e he
  obtain ⟨j, t, hshape, _⟩ := extractChildrenLocs_shape cs' i e he
  rw [hshape]
  congr 1
  show (sigResolve (j :: t) (HNode.element tag attrs cs)).map Prod.fst =
    (match sigIndexToRaw j cs with
     | none => none
     | some raw =>
       match cs.get? raw with
       | none => none
       | some c => (sigResolve t c).map (fun pr : List Nat × HNode => raw :: pr.1))
  cases hg : sigIndexToRaw j cs with
  | none =>
    rw [sigResolve_cons_none1
      (show sigIndexToRaw j (childrenOf (HNode.element tag attrs cs)) = none from hg)]
    rfl
  | some r =>
    cases hgc : cs.get? r with
    | none =>
      rw [sigResolve_cons_none2
        (show sigIndexToRaw j (childrenOf (HNode.element tag attrs cs)) = some r
          from hg)
        (show (childrenOf (HNode.element tag attrs cs)).get? r = none from hgc)]
      show (none : Option (List Nat × HNode)).map Prod.fst =
        (match cs.get? r with
         | none => none
         | some c => (sigResolve t c).map (fun pr : List Nat × HNode => r :: pr.1))
      rw [hgc]
      rfl
    | some c =>
      rw [sigResolve_cons_eq
        (show sigIndexToRaw j (childrenOf (HNode.element tag attrs cs)) = some r
          from hg)
        (show (childrenOf (HNode.element tag attrs cs)).get? r = some c from hgc)
        (rfl : sigResolve t c = sigResolve t c)]
      rw [Option.map_map]
      show (sigResolve t c).map (Prod.fst ∘ fun pr => (r :: pr.1, pr.2)) =
        (match cs.get? r with
         | none => none
         | some cc => (sigResolve t cc).map (fun pr : List Nat × HNode => r :: pr.1))
      rw [hgc]
      show (sigResolve t c).map (Prod.fst ∘ fun pr => (r :: pr.1, pr.2)) =
        (sigResolve t c).map (fun pr : List Nat × HNode => r :: pr.1)
      rfl

/-- Static resolution of child entries only depends on the prefix through
its significant count and length. -/
theorem resolvedChildWrites_prefix_congr (tr : String → String → String)
    (path : String) (cs' : List HNode) (i : Nat) (P Q cs : List HNode)
    (hP : countSig P = i) (hQ : countSig Q = i) (hlen : P.length = Q.length) :
    resolvedChildWrites tr path (P ++ cs) i cs' =
      resolvedChildWrites tr path (Q ++ cs) i cs' := by
  unfold resolvedChildWrites
  apply List.map_congr_left
  intro e he
  obtain ⟨j, t, hshape, hij⟩ := extractChildrenLocs_shape cs' i e he
  rw [hshape]
  congr 1
  show (match sigIndexToRaw j (P ++ cs) with
     | none => none
     | some raw =>
       match (P ++ cs).get? raw with
       | none => none
       | some c => (sigResolve t c).map (fun pr : List Nat × HNode => raw :: pr.1)) =
    (match sigIndexToRaw j (Q ++ cs) with
     | none => none
     | some raw =>
       match (Q ++ cs).get? raw with
       | none => none
       | some c => (sigResolve t c).map (fun pr : List Nat × HNode => raw :: pr.1))
  have hjP := sigIndexToRaw_prefix P cs (j - i)
  rw [hP, show i + (j - i) = j from by omega] at hjP
  have hjQ := sigIndexToRaw_prefix Q cs (j - i)
  rw [hQ, show i + (j - i) = j from by omega, ← hlen] at hjQ
  cases hx : sigIndexToRaw (j - i) cs with
  | none =>
    rw [hjP, hjQ, hx]
    rfl
  | some r =>
    rw [hjP, hjQ, hx]
    show (match (P ++ cs).get? (r + P.length) with
      | none => none
      | some c => (sigResolve t c).map
          (fun pr : List Nat × HNode => (r + P.length) :: pr.1)) =
      (match (Q ++ cs).get? (r + P.length) with
      | none => none
      | some c => (sigResolve t c).map
          (fun pr : List Nat × HNode => (r + P.length) :: pr.1))
    have hgP : (P ++ cs).get? (r + P.length) = cs.get? r := by
      rw [Nat.add_comm]; exact get?_append_len P cs r
    have hgQ : (Q ++ cs).get? (r + P.length) = cs.get? r := by
      rw [Nat.add_comm, hlen]; exact get?_append_len Q cs r
    rw [hgP, hgQ]

/-- Folding the attribute writes of an element equals the specification's
attribute map. -/
theorem attr_fold (tr : String → String → String) (path tag : String)
    (attrs : List (String × String)) (cs : List HNode)
    (hnd : (attrs.map Prod.fst).Nodup) :
    (((LOCALIZABLE_ATTRIBUTES tag).filterMap (fun a =>
        match getAttribute attrs a with
        | none => none
        | some v => if v = "" then none else some (([] : List Nat), some a, v))).map
      (fun e => ((sigResolve e.1 (HNode.element tag attrs cs)).map Prod.fst, e.2.1,
        tr (encodeKey path e.1 e.2.1) e.2.2))).foldl applyResolved
      (HNode.element tag attrs cs) =
    HNode.element tag
      (attrs.map (fun kv =>
        if kv.1 ∈ LOCALIZABLE_ATTRIBUTES tag ∧ kv.2 ≠ "" then
          (kv.1, tr (path ++ "#" ++ kv.1) kv.2)
        else kv)) cs := by
  rcases LOCALIZABLE_ATTRIBUTES_cases tag with htab | ⟨a0, htab⟩
  · rw [htab]
    simp
  · rw [htab]
    cases hga : getAttribute attrs a0 with
    | none =>
      have hlhs : [a0].filterMap (fun a =>
          match getAttribute attrs a with
          | none => none
          | some v => if v = "" then none else some (([] : List Nat), some a, v)) =
          [] := by
        simp [List.filterMap_cons, hga]
      rw [hlhs]
      show HNode.element tag attrs cs = _
      congr 1
      symm
      have hid : ∀ kv ∈ attrs, (if kv.1 ∈ [a0] ∧ kv.2 ≠ "" then
          (kv.1, tr (path ++ "#" ++ kv.1) kv.2) else kv) = kv := by
        intro kv hkv
        rw [if_neg]
        rintro ⟨hmem, hne⟩
        have hk : kv.1 = a0 := by simpa using hmem
        have hg := getAttribute_of_nodup_mem attrs hnd kv hkv
        rw [hk, hga] at hg
        exact Option.noConfusion hg
      rw [List.map_congr_left hid]
      exact List.map_id' attrs
    | some v =>
      by_cases hv : v = ""
      · have hlhs : [a0].filterMap (fun a =>
            match getAttribute attrs a with
            | none => none
            | some v => if v = "" then none else some (([] : List Nat), some a, v)) =
            [] := by
          simp [List.filterMap_cons, hga, hv]
        rw [hlhs]
        show HNode.element tag attrs cs = _
        congr 1
        symm
        have hid : ∀ kv ∈ attrs, (if kv.1 ∈ [a0] ∧ kv.2 ≠ "" then
            (kv.1, tr (path ++ "#" ++ kv.1) kv.2) else kv) = kv := by
          intro kv hkv
          rw [if_neg]
          rintro ⟨hmem, hne⟩
          have hk : kv.1 = a0 := by simpa using hmem
          have hg := getAttribute_of_nodup_mem attrs hnd kv hkv
          rw [hk, hga] at hg
          injection hg with hg'
          exact hne (by rw [← hg']; exact hv)
        rw [List.map_congr_left hid]
        exact List.map_id' attrs
      · have hlhs : [a0].filterMap (fun a =>
            match getAttribute attrs a with
            | none => none
            | some v => if v = "" then none else some (([] : List Nat), some a, v)) =
            [(([] : List Nat), some a0, v)] := by
          simp [List.filterMap_cons, hga, hv]
        rw [hlhs]
        show applyResolved (HNode.element tag attrs cs)
            ((sigResolve ([] : List Nat) (HNode.element tag attrs cs)).map Prod.fst,
              some a0, tr (encodeKey path [] (some a0)) v) = _
        show HNode.element tag
            (setAttribute attrs a0 (tr (encodeKey path [] (some a0)) v)) cs = _
        rw [encodeKey_nil_some]
        rw [setAttribute_of_getAttribute (tr (path ++ "#" ++ a0) v) hga]
        congr 1
        apply List.map_congr_left
        intro kv hkv
        by_cases hk : kv.1 = a0
        · have hg := getAttribute_of_nodup_mem attrs hnd kv hkv
          rw [hk, hga] at hg
          injection hg with hg'
          rw [if_pos hk, if_pos (⟨by simp [hk], by rw [← hg']; exact hv⟩ :
            kv.1 ∈ [a0] ∧ kv.2 ≠ "")]
          rw [hk, hg']
        · rw [if_neg hk, if_neg]
          rintro ⟨hmem, _⟩
          exact hk (by simpa using hmem)

theorem resolvedChildWrites_cons_sig (tr : String → String → String)
    (path : String) (P : List HNode) (c : HNode) (rest : List HNode) (i : Nat)
    (hsg : significant c = true) (hP : countSig P = i) :
    resolvedChildWrites tr path (P ++ c :: rest) i (c :: rest) =
      (resolvedWrites tr (path ++ "/" ++ natToStr i) c).map
          (fun w => (w.1.map (fun l => P.length :: l), w.2)) ++
      resolvedChildWrites tr path (P ++ c :: rest) (i + 1) rest := by
  have hsi : sigIndexToRaw i (P ++ c :: rest) = some P.length := by
    have hx := sigIndexToRaw_prefix P (c :: rest) 0
    rw [Nat.add_zero, hP] at hx
    rw [hx, show sigIndexToRaw 0 (c :: rest) = some 0 from by
      show (if significant c then some 0 else (sigIndexToRaw 0 rest).map (· + 1)) =
        some 0
      rw [if_pos hsg]]
    show some (0 + P.length) = some P.length
    rw [Nat.zero_add]
  have hgp : (P ++ c :: rest).get? P.length = some c := by
    have hx := get?_append_len P (c :: rest) 0
    rwa [Nat.add_zero] at hx
  unfold resolvedChildWrites resolvedWrites
  rw [show extractChildrenLocs i (c :: rest) =
      (extractNodeLocs c).map (fun e => ((i :: e.1 : List Nat), e.2)) ++
        extractChildrenLocs (i + 1) rest from by
    simp only [extractChildrenLocs, if_pos hsg]]
  rw [List.map_append]
  congr 1
  rw [List.map_map, List.map_map]
  apply List.map_congr_left
  intro e' _
  show ((match (i :: e'.1 : List Nat) with
      | [] => none
      | j :: rest2 =>
        match sigIndexToRaw j (P ++ c :: rest) with
        | none => none
        | some raw =>
          match (P ++ c :: rest).get? raw with
          | none => none
          | some c2 =>
            (sigResolve rest2 c2).map (fun pr : List Nat × HNode => raw :: pr.1)),
      e'.2.1, tr (encodeKey path (i :: e'.1) e'.2.1) e'.2.2) =
    (((sigResolve e'.1 c).map Prod.fst).map (fun l => P.length :: l), e'.2.1,
      tr (encodeKey (path ++ "/" ++ natToStr i) e'.1 e'.2.1) e'.2.2)
  rw [encodeKey_cons]
  congr 1
  show (match sigIndexToRaw i (P ++ c :: rest) with
    | none => none
    | some raw =>
      match (P ++ c :: rest).get? raw with
      | none => none
      | some c2 =>
        (sigResolve e'.1 c2).map (fun pr : List Nat × HNode => raw :: pr.1)) =
    ((sigResolve e'.1 c).map Prod.fst).map (fun l => P.length :: l)
  rw [hsi]
  show (match (P ++ c :: rest).get? P.length with
    | none => none
    | some c2 =>
      (sigResolve e'.1 c2).map (fun pr : List Nat × HNode => P.length :: pr.1)) =
    ((sigResolve e'.1 c).map Prod.fst).map (fun l => P.length :: l)
  rw [hgp]
  show (sigResolve e'.1 c).map (fun pr : List Nat × HNode => P.length :: pr.1) =
    ((sigResolve e'.1 c).map Prod.fst).map (fun l => P.length :: l)
  rw [Option.map_map]
  rfl

theorem resolvedChildWrites_cons_insig (tr : String → String → String)
    (path : String) (L : List HNode) (i : Nat) (c : HNode) (rest : List HNode)
    (hsg : ¬ significant c = true) :
    resolvedChildWrites tr path L i (c :: rest) =
      resolvedChildWrites tr path L i rest := by
  unfold resolvedChildWrites
  rw [show extractChildrenLocs i (c :: rest) = extractChildrenLocs i rest from by
    simp only [extractChildrenLocs, if_neg hsg]]

/-- The fold of the statically resolved writes computes the spec-side
translation. -/
theorem static_fold (tr : String → String → String)
    (htr : ∀ p v, jsTrim (tr p v) ≠ "") :
    (∀ n : HNode, wfAttrs n = true → ∀ path : String,
      (resolvedWrites tr path n).foldl applyResolved n =
        specTranslateNode tr false path n) ∧
    (∀ cs : List HNode, wfAttrsList cs = true →
      ∀ (path : String) (i : Nat) (tag : String)
        (attrs : List (String × String)) (P : List HNode), countSig P = i →
      (resolvedChildWrites tr path (P ++ cs) i cs).foldl applyResolved
          (HNode.element tag attrs (P ++ cs)) =
        HNode.element tag attrs (P ++ specTranslateChildren tr false path i cs)) := by
  suffices H : ∀ k : Nat,
      (∀ n : HNode, sizeOf n ≤ k → wfAttrs n = true → ∀ path : String,
        (resolvedWrites tr path n).foldl applyResolved n =
          specTranslateNode tr false path n) ∧
      (∀ cs : List HNode, sizeOf cs ≤ k → wfAttrsList cs = true →
        ∀ (path : String) (i : Nat) (tag : String)
          (attrs : List (String × String)) (P : List HNode), countSig P = i →
        (resolvedChildWrites tr path (P ++ cs) i cs).foldl applyResolved
            (HNode.element tag attrs (P ++ cs)) =
          HNode.element tag attrs (P ++ specTranslateChildren tr false path i cs)) by
    exact ⟨fun n => (H (sizeOf n)).1 n le_rfl, fun cs => (H (sizeOf cs)).2 cs le_rfl⟩
  intro k
  induction k with
  | zero =>
    refine ⟨fun n hn => ?_, fun cs hcs => ?_⟩
    · cases n <;> simp at hn
    · cases cs <;> simp at hcs
  | succ k ih =>
    obtain ⟨ihN, ihL⟩ := ih
    refine ⟨fun n hn hwf path => ?_, fun cs hcs hwf path i tag attrs P hP => ?_⟩
    · cases n with
      | text s =>
        by_cases hs : jsTrim s = ""
        · unfold resolvedWrites
          rw [show extractNodeLocs (HNode.text s) = [] from by
            simp [extractNodeLocs, hs]]
          show HNode.text s =
            (if jsTrim s = "" then HNode.text s else HNode.text (tr path (jsTrim s)))
          rw [if_pos hs]
        · unfold resolvedWrites
          rw [show extractNodeLocs (HNode.text s) =
              [(([] : List Nat), none, jsTrim s)] from by
            simp [extractNodeLocs, hs]]
          show HNode.text (tr (encodeKey path [] none) (jsTrim s)) =
            specTranslateNode tr false path (HNode.text s)
          rw [encodeKey_nil_none]
          show HNode.text (tr path (jsTrim s)) =
            (if jsTrim s = "" then HNode.text s else HNode.text (tr path (jsTrim s)))
          rw [if_neg hs]
      | element tag attrs cs =>
        have hsz : sizeOf cs ≤ k := by simp at hn; omega
        have hwf' : (decide ((attrs.map Prod.fst).Nodup) && wfAttrsList cs) = true :=
          hwf
        rw [Bool.and_eq_true] at hwf'
        obtain ⟨hnd', hwfl⟩ := hwf'
        have hnd : (attrs.map Prod.fst).Nodup := of_decide_eq_true hnd'
        have hspec : specTranslateNode tr false path (HNode.element tag attrs cs) =
            HNode.element tag
              (attrs.map (fun kv =>
                if kv.1 ∈ LOCALIZABLE_ATTRIBUTES tag ∧ kv.2 ≠ "" then
                  (kv.1, tr (path ++ "#" ++ kv.1) kv.2)
                else kv))
              (specTranslateChildren tr (false || isUnlocalizableTag tag) path 0 cs) :=
          rfl
        rw [hspec]
        unfold resolvedWrites
        simp only [extractNodeLocs]
        rw [List.map_append, List.foldl_append]
        rw [attr_fold tr path tag attrs cs hnd]
        by_cases hu : isUnlocalizableTag tag
        · rw [if_pos hu]
          rw [show (false || isUnlocalizableTag tag) = true from by simp [hu]]
          rw [specTranslateChildren_blocked tr cs path 0]
          rfl
        · rw [if_neg hu]
          rw [show (false || isUnlocalizableTag tag) = false from by simp [hu]]
          rw [childWrites_eq tr path tag attrs cs cs 0]
          have hlist := ihL cs hsz hwfl path 0 tag
            (attrs.map (fun kv =>
              if kv.1 ∈ LOCALIZABLE_ATTRIBUTES tag ∧ kv.2 ≠ "" then
                (kv.1, tr (path ++ "#" ++ kv.1) kv.2)
              else kv))
            [] rfl
          rw [List.nil_append] at hlist
          exact hlist
    · cases cs with
      | nil => rfl
      | cons c rest =>
        have h1 : sizeOf c ≤ k := by simp at hcs; omega
        have h2 : sizeOf rest ≤ k := by simp at hcs; omega
        have hwf' : (wfAttrs c && wfAttrsList rest) = true := hwf
        rw [Bool.and_eq_true] at hwf'
        obtain ⟨hwc, hwr⟩ := hwf'
        by_cases hsg : significant c
        · rw [resolvedChildWrites_cons_sig tr path P c rest i hsg hP]
          rw [List.foldl_append]
          rw [fold_lift]
          rw [ihN c h1 hwc (path ++ "/" ++ natToStr i)]
          have hsig' : significant
              (specTranslateNode tr false (path ++ "/" ++ natToStr i) c) =
              significant c :=
            significant_specTranslateNode tr htr c _
          have hcs1 : countSig (P ++ [c]) = i + 1 := by
            rw [countSig_append, countSig_singleton, if_pos hsg, hP]
          have hcs2 : countSig
              (P ++ [specTranslateNode tr false (path ++ "/" ++ natToStr i) c]) =
              i + 1 := by
            rw [countSig_append, countSig_singleton, hsig', if_pos hsg, hP]
          have hw : resolvedChildWrites tr path (P ++ c :: rest) (i + 1) rest =
              resolvedChildWrites tr path
                (P ++ specTranslateNode tr false (path ++ "/" ++ natToStr i) c ::
                  rest) (i + 1) rest := by
            rw [show P ++ c :: rest = (P ++ [c]) ++ rest from by simp]
            rw [show P ++ specTranslateNode tr false (path ++ "/" ++ natToStr i) c ::
                rest =
              (P ++ [specTranslateNode tr false (path ++ "/" ++ natToStr i) c]) ++
                rest from by simp]
            exact resolvedChildWrites_prefix_congr tr path rest (i + 1) (P ++ [c])
              (P ++ [specTranslateNode tr false (path ++ "/" ++ natToStr i) c])
              rest hcs1 hcs2 (by simp)
          rw [hw]
          have hlist := ihL rest h2 hwr path (i + 1) tag attrs
            (P ++ [specTranslateNode tr false (path ++ "/" ++ natToStr i) c]) hcs2
          rw [show (P ++ [specTranslateNode tr false (path ++ "/" ++ natToStr i) c]) ++
              rest =
            P ++ specTranslateNode tr false (path ++ "/" ++ natToStr i) c :: rest
            from by simp] at hlist
          rw [hlist]
          have hspec : specTranslateChildren tr false path i (c :: rest) =
              specTranslateNode tr false (path ++ "/" ++ natToStr i) c ::
                specTranslateChildren tr false path (i + 1) rest := by
            show (if significant c then
                specTranslateNode tr false (path ++ "/" ++ natToStr i) c ::
                  specTranslateChildren tr false path (i + 1) rest
              else c :: specTranslateChildren tr false path i rest) = _
            rw [if_pos hsg]
          rw [hspec]
          simp
        · rw [resolvedChildWrites_cons_insig tr path (P ++ c :: rest) i c rest hsg]
          have hcs1 : countSig (P ++ [c]) = i := by
            simp [countSig_append, countSig_singleton, hsg, hP]
          rw [show P ++ c :: rest = (P ++ [c]) ++ rest from by simp]
          rw [ihL rest h2 hwr path i tag attrs (P ++ [c]) hcs1]
          have hspec : specTranslateChildren tr false path i (c :: rest) =
              c :: specTranslateChildren tr false path i rest := by
            show (if significant c then
                specTranslateNode tr false (path ++ "/" ++ natToStr i) c ::
                  specTranslateChildren tr false path (i + 1) rest
              else c :: specTranslateChildren tr false path i rest) = _
            rw [if_neg hsg]
          rw [hspec]
          simp

/-- A key-preserving remote together with the merge returns the payload's
entries translated in place (general pipeline form of the C2 result). -/
theorem localizeRaw_respondWith (batchSize idealBatchItemSize : Int)
    (tr : String → String → String) (obj : List (String × String))
    (hnd : (obj.map Prod.fst).Nodup) :
    _localizeRaw batchSize idealBatchItemSize (respondWith tr)
        (obj.map fun kv => (kv.1, JVal.str kv.2)) =
      obj.map fun kv => (kv.1, tr kv.1 kv.2) := by
  have hflat := extractPayloadChunks_flatten_all_str batchSize idealBatchItemSize obj
  have hmapflat :
      ((extractPayloadChunks batchSize idealBatchItemSize
          (obj.map fun kv => (kv.1, JVal.str kv.2))).map (respondWith tr)).flatten =
        obj.map fun kv => (kv.1, tr kv.1 kv.2) := by
    have hresp : respondWith tr =
        List.map (fun kv : String × String => (kv.1, tr kv.1 kv.2)) := rfl
    rw [hresp, ← List.map_flatten, hflat]
  have hkeys :
      (((extractPayloadChunks batchSize idealBatchItemSize
          (obj.map fun kv => (kv.1, JVal.str kv.2))).map
            (respondWith tr)).flatten.map Prod.fst).Nodup := by
    rw [hmapflat, List.map_map]
    have hfun : (Prod.fst ∘ fun kv : String × String => (kv.1, tr kv.1 kv.2)) =
        Prod.fst := by
      funext kv; rfl
    rw [hfun]
    exact hnd
  calc _localizeRaw batchSize idealBatchItemSize (respondWith tr)
          (obj.map fun kv => (kv.1, JVal.str kv.2))
      = mergeChunks ((extractPayloadChunks batchSize idealBatchItemSize
            (obj.map fun kv => (kv.1, JVal.str kv.2))).map (respondWith tr)) := rfl
    _ = ((extractPayloadChunks batchSize idealBatchItemSize
            (obj.map fun kv => (kv.1, JVal.str kv.2))).map (respondWith tr)).flatten :=
          mergeChunks_of_nodup _ hkeys
    _ = obj.map fun kv => (kv.1, tr kv.1 kv.2) := hmapflat

theorem locs_attr_no_hash (cs : List HNode) (i : Nat) :
    ∀ e ∈ extractChildrenLocs i cs, ∀ s, e.2.1 = some s →
      ∀ ch ∈ s.data, ¬ ch = '#' := by
  intro e he s hs ch hc
  obtain ⟨j, t, _, _, r, cc, _, _, raw, m, _, htgt⟩ := locs_sound.2 cs i e he
  rw [hs] at htgt
  obtain ⟨tg, ats, cls, _, hmem, _, _⟩ := htgt
  exact table_attr_no_hash tg s hmem ch hc

theorem rootTag_encodeKey (root : String)
    (hrootH : ∀ c ∈ root.data, ¬ c = '#') (hrootS : ∀ c ∈ root.data, ¬ c = '/')
    (idxs : List Nat) (attr : Option String)
    (hattrH : ∀ s, attr = some s → ∀ c ∈ s.data, ¬ c = '#') :
    (((jsSplit '/' (((jsSplit '#'
      (encodeKey root idxs attr)).get? 0).getD "")).get? 0).getD "") = root := by
  cases attr with
  | none =>
    rw [jsSplit_hash_encodeKey_none root idxs hrootH]
    rw [show (([root ++ idxSuffix idxs] : List String).get? 0).getD "" =
      root ++ idxSuffix idxs from rfl]
    rw [jsSplit_slash_idxSuffix idxs root hrootS]
    rfl
  | some a =>
    rw [jsSplit_hash_encodeKey_some root idxs a hrootH (hattrH a rfl)]
    rw [show (([root ++ idxSuffix idxs, a] : List String).get? 0).getD "" =
      root ++ idxSuffix idxs from rfl]
    rw [jsSplit_slash_idxSuffix idxs root hrootS]
    rfl

theorem encoded_keys_nodup (root : String)
    (hrootH : ∀ c ∈ root.data, ¬ c = '#') (hrootS : ∀ c ∈ root.data, ¬ c = '/')
    (cs : List HNode) :
    ((extractChildrenLocs 0 cs).map
      (fun e => encodeKey root e.1 e.2.1)).Nodup := by
  have hnd := locs_keys_nodup.2 cs 0
  have hnd' : List.Pairwise (fun a b => ¬ a = b)
      ((extractChildrenLocs 0 cs).map (fun e => (e.1, e.2.1))) := hnd
  rw [List.pairwise_map] at hnd'
  show List.Pairwise (fun a b => ¬ a = b)
    ((extractChildrenLocs 0 cs).map (fun e => encodeKey root e.1 e.2.1))
  rw [List.pairwise_map]
  refine List.Pairwise.imp_of_mem ?_ hnd'
  intro a b ha hb hne henc
  obtain ⟨h1, h2⟩ := encodeKey_inj root hrootH hrootS
    (locs_attr_no_hash cs 0 a ha) (locs_attr_no_hash cs 0 b hb) henc
  exact hne (by rw [h1, h2])

theorem extractDoc_keys_nodup (doc : HtmlDoc) :
    ((extractDoc doc).map Prod.fst).Nodup := by
  unfold extractDoc
  rw [List.map_append]
  rw [extract_eq_encode.2 (childrenOf doc.head) "head" 0,
      extract_eq_encode.2 (childrenOf doc.body) "body" 0]
  rw [List.map_map, List.map_map]
  have hcomp : ∀ root : String,
      (Prod.fst ∘ (fun e : List Nat × Option String × String =>
        (encodeKey root e.1 e.2.1, e.2.2))) =
      (fun e : List Nat × Option String × String => encodeKey root e.1 e.2.1) :=
    fun root => funext fun e => rfl
  rw [hcomp "head", hcomp "body"]
  rw [List.nodup_append]
  refine ⟨encoded_keys_nodup "head" (by decide) (by decide) _,
    encoded_keys_nodup "body" (by decide) (by decide) _, ?_⟩
  intro x hxh hxb
  rcases List.mem_map.mp hxh with ⟨e, heMem, heEq⟩
  rcases List.mem_map.mp hxb with ⟨e', heMem', heEq'⟩
  have ha := rootTag_encodeKey "head" (by decide) (by decide) e.1 e.2.1
    (locs_attr_no_hash (childrenOf doc.head) 0 e heMem)
  have hb := rootTag_encodeKey "body" (by decide) (by decide) e'.1 e'.2.1
    (locs_attr_no_hash (childrenOf doc.body) 0 e' heMem')
  rw [heEq] at ha
  rw [heEq'] at hb
  rw [ha] at hb
  exact absurd hb (by decide)

/-- Replaying the translated entries of one extraction root through the
injection loop yields the spec-side translation of that root. -/
theorem root_round_trip (tr : String → String → String)
    (htr : ∀ p v, jsTrim (tr p v) ≠ "") (root : String)
    (hrootH : ∀ ch ∈ root.data, ¬ ch = '#') (hrootS : ∀ ch ∈ root.data, ¬ ch = '/')
    (n0 : HNode) (hwf : wfAttrs n0 = true) :
    ((extractChildrenLocs 0 (childrenOf n0)).map
        (fun e => (encodeKey root e.1 e.2.1,
          tr (encodeKey root e.1 e.2.1) e.2.2))).foldl
        (fun acc kv => injectIntoRoot acc kv.1 kv.2) n0 =
      specTranslateRoot tr root n0 := by
  cases n0 with
  | text s => rfl
  | element tag attrs cs =>
    have hall : ∀ e ∈ extractChildrenLocs 0 cs,
        ∃ raw m, sigResolve e.1 (HNode.element tag attrs cs) = some (raw, m) ∧
          EntryTarget e.2.1 e.2.2 m := by
      intro e he
      obtain ⟨j, t, hsh, _, r, c, h3, h4, raw, m, h5, h6⟩ := locs_sound.2 cs 0 e he
      rw [Nat.sub_zero] at h3
      refine ⟨r :: raw, m, ?_, h6⟩
      rw [hsh]
      rw [sigResolve_cons_eq
        (show sigIndexToRaw j (childrenOf (HNode.element tag attrs cs)) = some r
          from h3)
        (show (childrenOf (HNode.element tag attrs cs)).get? r = some c from h4) h5]
      rfl
    have hdyn := fold_inject_eq_fold_resolved tr root hrootH hrootS htr
      (extractChildrenLocs 0 cs) (HNode.element tag attrs cs)
      (HNode.element tag attrs cs) rfl hall
    rw [show childrenOf (HNode.element tag attrs cs) = cs from rfl]
    rw [hdyn]
    rw [childWrites_eq tr root tag attrs cs cs 0]
    have hwfl : wfAttrsList cs = true := by
      have hwf' : (decide ((attrs.map Prod.fst).Nodup) && wfAttrsList cs) = true := hwf
      rw [Bool.and_eq_true] at hwf'
      exact hwf'.2
    have hlist := (static_fold tr htr).2 cs hwfl root 0 tag attrs [] rfl
    rw [List.nil_append] at hlist
    rw [hlist]
    rfl

theorem injectEntry_head (d : HtmlDoc) (key v : String)
    (h : (((jsSplit '/' (((jsSplit '#' key).get? 0).getD "")).get? 0).getD "") =
      "head") :
    injectEntry d key v = { d with head := injectIntoRoot d.head key v } := by
  unfold injectEntry injectIntoRoot
  dsimp only
  rw [if_pos h]

theorem injectEntry_body (d : HtmlDoc) (key v : String)
    (h : ¬ (((jsSplit '/' (((jsSplit '#' key).get? 0).getD "")).get? 0).getD "") =
      "head") :
    injectEntry d key v = { d with body := injectIntoRoot d.body key v } := by
  unfold injectEntry injectIntoRoot
  dsimp only
  rw [if_neg h]

theorem foldl_injectEntry_head :
    ∀ (entries : List (String × String)) (d : HtmlDoc),
      (∀ kv ∈ entries,
        (((jsSplit '/' (((jsSplit '#' kv.1).get? 0).getD "")).get? 0).getD "") =
          "head") →
      entries.foldl (fun d kv => injectEntry d kv.1 kv.2) d =
        { d with head :=
            entries.foldl (fun n kv => injectIntoRoot n kv.1 kv.2) d.head } := by
  intro entries
  induction entries with
  | nil => intro d _; rfl
  | cons kv rest ih =>
    intro d hall
    rw [List.foldl_cons, List.foldl_cons]
    rw [injectEntry_head d kv.1 kv.2 (hall kv (List.mem_cons_self kv rest))]
    rw [ih _ (fun kv' h' => hall kv' (List.mem_cons_of_mem kv h'))]

theorem foldl_injectEntry_body :
    ∀ (entries : List (String × String)) (d : HtmlDoc),
      (∀ kv ∈ entries,
        ¬ (((jsSplit '/' (((jsSplit '#' kv.1).get? 0).getD "")).get? 0).getD "") =
          "head") →
      entries.foldl (fun d kv => injectEntry d kv.1 kv.2) d =
        { d with body :=
            entries.foldl (fun n kv => injectIntoRoot n kv.1 kv.2) d.body } := by
  intro entries
  induction entries with
  | nil => intro d _; rfl
  | cons kv rest ih =>
    intro d hall
    rw [List.foldl_cons, List.foldl_cons]
    rw [injectEntry_body d kv.1 kv.2 (hall kv (List.mem_cons_self kv rest))]
    rw [ih _ (fun kv' h' => hall kv' (List.mem_cons_of_mem kv h'))]

/-- Claim C4 (amended): for a key-preserving remote whose translations are
never blank after trimming, and a document whose head and body have
well-formed (duplicate-free) attribute lists, `localizeHtml` sets the root
`lang` attribute to the target locale and returns the document with every
extracted text node's trimmed content and every extracted localizable
attribute replaced by its translation, everything else (scripts, styles,
insignificant nodes, other attributes) untouched.  Without the
non-blankness condition the claim is false (see the counterexample): the
injection loop replays each path against the partially mutated DOM, and a
blank translation changes which nodes are significant, so later writes land
on the wrong nodes. -/
theorem claim4_localizeHtml_round_trip (batchSize idealBatchItemSize : Int)
    (tr : String → String → String) (doc : HtmlDoc) (targetLocale : String)
    (htr : ∀ p v, jsTrim (tr p v) ≠ "")
    (hwfh : wfAttrs doc.head = true) (hwfb : wfAttrs doc.body = true) :
    localizeHtml batchSize idealBatchItemSize (respondWith tr) doc targetLocale =
      { htmlAttrs := setAttribute doc.htmlAttrs "lang" targetLocale,
        head := specTranslateRoot tr "head" doc.head,
        body := specTranslateRoot tr "body" doc.body } := by
  have hheadkeys : ∀ kv ∈ ((extractChildrenLocs 0 (childrenOf doc.head)).map
      (fun e => (encodeKey "head" e.1 e.2.1,
        tr (encodeKey "head" e.1 e.2.1) e.2.2))),
      (((jsSplit '/' (((jsSplit '#' kv.1).get? 0).getD "")).get? 0).getD "") =
        "head" := by
    intro kv hkv
    rcases List.mem_map.mp hkv with ⟨e, heMem, heEq⟩
    rw [← heEq]
    exact rootTag_encodeKey "head" (by decide) (by decide) e.1 e.2.1
      (locs_attr_no_hash (childrenOf doc.head) 0 e heMem)
  have hbodykeys : ∀ kv ∈ ((extractChildrenLocs 0 (childrenOf doc.body)).map
      (fun e => (encodeKey "body" e.1 e.2.1,
        tr (encodeKey "body" e.1 e.2.1) e.2.2))),
      ¬ (((jsSplit '/' (((jsSplit '#' kv.1).get? 0).getD "")).get? 0).getD "") =
        "head" := by
    intro kv hkv
    rcases List.mem_map.mp hkv with ⟨e, heMem, heEq⟩
    intro heq
    rw [← heEq] at heq
    have heq' : (((jsSplit '/' (((jsSplit '#'
        (encodeKey "body" e.1 e.2.1)).get? 0).getD "")).get? 0).getD "") =
        "head" := heq
    rw [rootTag_encodeKey "body" (by decide) (by decide) e.1 e.2.1
      (locs_attr_no_hash (childrenOf doc.body) 0 e heMem)] at heq'
    exact absurd heq' (by decide)
  unfold localizeHtml
  dsimp only
  rw [localizeRaw_respondWith batchSize idealBatchItemSize tr (extractDoc doc)
    (extractDoc_keys_nodup doc)]
  rw [show extractDoc doc =
    extractChildren false "head" 0 (childrenOf doc.head) ++
      extractChildren false "body" 0 (childrenOf doc.body) from rfl]
  rw [extract_eq_encode.2 (childrenOf doc.head) "head" 0,
      extract_eq_encode.2 (childrenOf doc.body) "body" 0]
  rw [List.map_append, List.map_map, List.map_map]
  have hcomp : ∀ root : String,
      ((fun kv : String × String => (kv.1, tr kv.1 kv.2)) ∘
        (fun e : List Nat × Option String × String =>
          (encodeKey root e.1 e.2.1, e.2.2))) =
      (fun e : List Nat × Option String × String =>
        (encodeKey root e.1 e.2.1, tr (encodeKey root e.1 e.2.1) e.2.2)) :=
    fun root => funext fun e => rfl
  rw [hcomp "head", hcomp "body"]
  rw [List.foldl_append]
  rw [foldl_injectEntry_head _ _ hheadkeys]
  rw [foldl_injectEntry_body _ _ hbodykeys]
  dsimp only
  rw [root_round_trip tr htr "head" (by decide) (by decide) doc.head hwfh]
  rw [root_round_trip tr htr "body" (by decide) (by decide) doc.body hwfb]

/-- Claim C4, witness: the amended round trip at a concrete document and a
constant non-blank translator, with every hypothesis discharged by
computation. -/
theorem claim4_witness :
    (∀ p v : String, jsTrim ((fun _ _ => "X") p v) ≠ "") ∧
    localizeHtml 25 250 (respondWith fun _ _ => "X")
      { htmlAttrs := [("amp", "")],
        head := HNode.element "head" []
          [HNode.element "title" [] [HNode.text "Hello"]],
        body := HNode.element "body" []
          [HNode.text "  ", HNode.text "Hi there",
           HNode.element "script" [] [HNode.text "var x = 1"],
           HNode.element "img" [("src", "a.png"), ("alt", "Cat")] [],
           HNode.element "p" [] [HNode.text "Bye"]] } "fr" =
    { htmlAttrs := [("amp", ""), ("lang", "fr")],
      head := HNode.element "head" [] [HNode.element "title" [] [HNode.text "X"]],
      body := HNode.element "body" []
        [HNode.text "  ", HNode.text "X",
         HNode.element "script" [] [HNode.text "var x = 1"],
         HNode.element "img" [("src", "a.png"), ("alt", "X")] [],
         HNode.element "p" [] [HNode.text "X"]] } :=
  ⟨fun p v => by show jsTrim "X" ≠ ""; decide,
   claim4_localizeHtml_round_trip 25 250 (fun _ _ => "X")
     { htmlAttrs := [("amp", "")],
       head := HNode.element "head" []
         [HNode.element "title" [] [HNode.text "Hello"]],
       body := HNode.element "body" []
         [HNode.text "  ", HNode.text "Hi there",
          HNode.element "script" [] [HNode.text "var x = 1"],
          HNode.element "img" [("src", "a.png"), ("alt", "Cat")] [],
          HNode.element "p" [] [HNode.text "Bye"]] } "fr"
     (fun p v => by show jsTrim "X" ≠ ""; decide) (by decide) (by decide)⟩

end SdkDeno
